import Mathlib

/-!
Verification development for the block/page segmentation core of the
wildreason/reader repository (Go). Go strings are modelled as lists of
characters (`Str`); `strings.Split`, `strings.Join`, `strings.HasPrefix`,
`strings.TrimSpace`, `strings.ToLower`, `strings.Contains` and
`strings.Index` are modelled by the executable functions below. The model
of `unicode.IsSpace` covers the Latin-1 white-space set actually reachable
from the classifier and parser inputs considered here; `strings.ToLower`
is modelled on ASCII letters. Go byte indices coincide with character
indices on the ASCII data all theorems below use.
-/

set_option maxRecDepth 4000

abbrev Str := List Char

def str (s : String) : Str := s.data

/-- Go unicode.IsSpace on the Latin-1 range: space, tab, newline, vertical
tab, form feed, carriage return, NEL and NBSP. -/
def goIsSpace (c : Char) : Bool :=
  c == ' ' || c == '\t' || c == '\n' || c == Char.ofNat 0x0B ||
  c == Char.ofNat 0x0C || c == '\r' || c == Char.ofNat 0x85 || c == Char.ofNat 0xA0

/-- Go regexp class backslash-s, which is the Perl set tab, newline, form
feed, carriage return, space (no vertical tab, no NEL/NBSP). -/
def reIsSpace (c : Char) : Bool :=
  c == ' ' || c == '\t' || c == '\n' || c == Char.ofNat 0x0C || c == '\r'

/-- Model of strings.TrimSpace. -/
def trimSpace (s : Str) : Str :=
  ((s.dropWhile goIsSpace).reverse.dropWhile goIsSpace).reverse

/-- Model of strings.HasPrefix s pre. -/
def strStartsWith : Str → Str → Bool
  | _, [] => true
  | [], _ :: _ => false
  | c :: s, p :: ps => c == p && strStartsWith s ps

/-- Model of strings.HasSuffix s suf. -/
def strEndsWith (s suf : Str) : Bool :=
  strStartsWith s.reverse suf.reverse

/-- Model of strings.Contains s sub. -/
def strContains (s sub : Str) : Bool :=
  if strStartsWith s sub then true
  else
    match s with
    | [] => false
    | _ :: t => strContains t sub

/-- Model of strings.Index s sub, with none for the Go result -1. -/
def strIndexOf (s sub : Str) : Option Nat :=
  if strStartsWith s sub then some 0
  else
    match s with
    | [] => none
    | _ :: t => (strIndexOf t sub).map (· + 1)

/-- Model of strings.ToLower (ASCII letters). -/
def toLowerStr (s : Str) : Str := s.map Char.toLower

/-- Model of strings.Split s (string of the single character sep). -/
def splitOnChar (sep : Char) : Str → List Str
  | [] => [[]]
  | c :: rest =>
    if c = sep then [] :: splitOnChar sep rest
    else
      match splitOnChar sep rest with
      | [] => [[c]]
      | h :: t => (c :: h) :: t

/-- Model of strings.Split s "\n". -/
def splitOnNl : Str → List Str := splitOnChar '\n'

/-- Model of strings.Join parts sep. -/
def joinSep (sep : Str) : List Str → Str
  | [] => []
  | [s] => s
  | s :: s2 :: rest => s ++ sep ++ joinSep sep (s2 :: rest)

/-- Model of strings.Join parts "\n". -/
def joinNl : List Str → Str := joinSep ['\n']

def digitChar (n : Nat) : Char := Char.ofNat (48 + n)

/-- Structural helper for natToStr: the first argument is fuel, always
sufficient at the call site below. -/
def natToStrAux : Nat → Nat → Str
  | 0, _ => []
  | fuel + 1, n =>
    if n < 10 then [digitChar n]
    else natToStrAux fuel (n / 10) ++ [digitChar (n % 10)]

/-- Decimal rendering of a natural number, as produced by fmt %d. -/
def natToStr (n : Nat) : Str := natToStrAux (n + 1) n

/-- Decimal rendering of an int, as produced by fmt %d. -/
def intToStr (n : Int) : Str :=
  if n < 0 then '-' :: natToStr n.natAbs else natToStr n.toNat

/-- Numeric value of a digit string, as recovered by fmt.Sscanf %d. -/
def digitsVal (s : Str) : Nat :=
  s.foldl (fun a c => 10 * a + (c.toNat - 48)) 0

/-- Structural helper for chunkJoin; the fuel first argument is always
sufficient at the call site below. -/
def chunkJoinF : Nat → List Str → Nat → List Str
  | 0, _, _ => []
  | _ + 1, [], _ => []
  | _ + 1, _ :: _, 0 => []
  | fuel + 1, l :: ls, n + 1 =>
    joinNl ((l :: ls).take (n + 1)) :: chunkJoinF fuel ((l :: ls).drop (n + 1)) (n + 1)

/-- Model of the fixed-window page loop in splitIntoPages: groups of
linesPerPage lines joined by newline. The Go loop does not terminate for
page size zero; it is only ever called with positive sizes, and the zero
case is a dead branch. -/
def chunkJoin (lines : List Str) (linesPerPage : Nat) : List Str :=
  chunkJoinF lines.length lines linesPerPage

/-- Model of splitIntoPages from the markdown parser source. -/
def splitIntoPages (lines : List Str) (linesPerPage : Nat) : List Str :=
  if lines.isEmpty then [[]]
  else
    let pages := chunkJoin lines linesPerPage
    if pages.isEmpty then [[]] else pages

/-! Content type classifier, from content_type.go. -/

inductive BlockContentType where
  | plain
  | diff
  | table
  | code
  | tree
  | json
  | yaml
deriving DecidableEq, Repr

/-- Model of isDiff from content_type.go: the loop flags and counters are
expressed with any/countP over the same per-line predicates. -/
def isDiff (content : Str) : Bool :=
  let lines := splitOnNl content
  let hasHunkHeader := lines.any (fun l => strStartsWith l (str "@@") && strContains l (str "@@"))
  let hasFileHeader := lines.any (fun l =>
    strStartsWith l (str "--- ") || strStartsWith l (str "+++ "))
  let additionCount := lines.countP (fun l =>
    strStartsWith l (str "+") && !strStartsWith l (str "+++"))
  let deletionCount := lines.countP (fun l =>
    strStartsWith l (str "-") && !strStartsWith l (str "---"))
  hasHunkHeader && hasFileHeader && (decide (0 < additionCount) || decide (0 < deletionCount))

/-- Model of the markdown table separator regexp, anchored form
pipe [space - colon]+ pipe, applied to a line without newline characters. -/
def sepLineMatch (l : Str) : Bool :=
  match l with
  | '|' :: rest =>
    let run := rest.takeWhile (fun c => reIsSpace c || c == '-' || c == ':')
    decide (0 < run.length) && strStartsWith (rest.drop run.length) (str "|")
  | _ => false

/-- Model of isTable from content_type.go. -/
def isTable (content : Str) : Bool :=
  let lines := splitOnNl content
  let pipeCount := lines.countP (fun l0 =>
    let l := trimSpace l0
    strStartsWith l (str "|") && strEndsWith l (str "|"))
  let separatorLine := lines.any (fun l0 => sepLineMatch (trimSpace l0))
  decide (3 ≤ pipeCount) && separatorLine

/-- Model of isTree from content_type.go. -/
def isTree (content : Str) : Bool :=
  let lines := splitOnNl content
  let treeChars := lines.countP (fun l => l.contains '├' || l.contains '└' || l.contains '│')
  decide (2 < lines.length) && decide (lines.length / 2 < treeChars)

/-- Model of isJSON from content_type.go. -/
def isJSON (content : Str) : Bool :=
  let trimmed := trimSpace content
  (strStartsWith trimmed (str "\x7b") && strEndsWith trimmed (str "\x7d")) ||
  (strStartsWith trimmed (str "[") && strEndsWith trimmed (str "]"))

/-- Model of the YAML key colon value regexp, anchored form
space* [word -]+ colon space* any+, applied to a line without newline
characters. -/
def kvMatch (l : Str) : Bool :=
  let s1 := l.dropWhile reIsSpace
  let run := s1.takeWhile (fun c => c.isAlphanum || c == '_' || c == '-')
  decide (0 < run.length) &&
    (match s1.drop run.length with
     | ':' :: rest => !rest.isEmpty
     | _ => false)

/-- Model of the YAML list item regexp, anchored form
space* dash space+ any+, applied to a line without newline characters. -/
def listItemMatch (l : Str) : Bool :=
  match l.dropWhile reIsSpace with
  | '-' :: c :: _ :: _ => reIsSpace c
  | _ => false

/-- Model of isYAML from content_type.go. -/
def isYAML (content : Str) : Bool :=
  let lines := splitOnNl content
  let yamlPatterns := lines.countP (fun l => kvMatch l || listItemMatch l)
  decide (2 < lines.length) && decide (lines.length / 2 < yamlPatterns)

/-- Model of DetectBlockContentType from content_type.go. -/
def DetectBlockContentType (content : Str) : BlockContentType :=
  if isDiff content then .diff
  else if isTable content then .table
  else if isTree content then .tree
  else if isJSON content then .json
  else if isYAML content then .yaml
  else .plain

/-! Unified diff hunk parsing, from formatter_diff.go. -/

inductive DiffLineType where
  | context
  | added
  | removed
deriving DecidableEq, Repr

structure DiffLine where
  lineType : DiffLineType
  content : Str
deriving DecidableEq, Repr

structure DiffHunk where
  header : Str
  lines : List DiffLine
  startOld : Nat
  startNew : Nat
deriving DecidableEq, Repr

/-- Tail of the hunk header regexp after a captured number: an optional
comma with digits, then a mandatory space; returns the remaining input.
Backtracking in the original regexp cannot produce any other split, since
the digit run is maximal and no class character equals the space. -/
def afterNum : Str → Option Str
  | ' ' :: r => some r
  | ',' :: r =>
    match r.drop ((r.takeWhile Char.isDigit).length) with
    | ' ' :: r2 => some r2
    | _ => none
  | _ => none

/-- Match of the hunk header regexp at the start of s, returning the two
captured numbers. -/
def hunkNumsAt (s : Str) : Option (Nat × Nat) :=
  match s with
  | '@' :: '@' :: ' ' :: '-' :: rest =>
    let d1 := rest.takeWhile Char.isDigit
    if d1.isEmpty then none
    else
      match afterNum (rest.drop d1.length) with
      | none => none
      | some r2 =>
        match r2 with
        | '+' :: r3 =>
          let d2 := r3.takeWhile Char.isDigit
          if d2.isEmpty then none
          else
            match afterNum (r3.drop d2.length) with
            | none => none
            | some r4 =>
              if strStartsWith r4 (str "@@") then some (digitsVal d1, digitsVal d2)
              else none
        | _ => none
  | _ => none

/-- Leftmost match of the hunk header regexp anywhere in s. -/
def hunkNums : Str → Option (Nat × Nat)
  | [] => hunkNumsAt []
  | c :: t =>
    match hunkNumsAt (c :: t) with
    | some p => some p
    | none => hunkNums t

/-- Model of parseHunkHeader from formatter_diff.go: the start fields stay
at the zero value when the regexp does not match. -/
def parseHunkHeaderNums (header : Str) : Nat × Nat :=
  (hunkNums header).getD (0, 0)

/-- Per-line classification inside a hunk, the if chain from the ParseHunks
loop body in formatter_diff.go. -/
def classifyDiffLine (l : Str) : DiffLine :=
  if strStartsWith l (str "+") then ⟨.added, l.drop 1⟩
  else if strStartsWith l (str "-") then ⟨.removed, l.drop 1⟩
  else if strStartsWith l (str " ") then ⟨.context, l.drop 1⟩
  else ⟨.context, l⟩

/-- Model of the ParseHunks loop from formatter_diff.go, with the running
hunk list and the open hunk as explicit state; the final open hunk is
flushed when the line list ends. -/
def phLoop : List Str → List DiffHunk → Option DiffHunk → List DiffHunk
  | [], hunks, cur => hunks ++ (match cur with | some h => [h] | none => [])
  | line :: rest, hunks, cur =>
    if strStartsWith line (str "---") || strStartsWith line (str "+++") then
      phLoop rest hunks cur
    else if strStartsWith line (str "@@") then
      let flushed := hunks ++ (match cur with | some h => [h] | none => [])
      let nums := parseHunkHeaderNums line
      phLoop rest flushed (some ⟨line, [], nums.1, nums.2⟩)
    else
      match cur with
      | some h => phLoop rest hunks (some { h with lines := h.lines ++ [classifyDiffLine line] })
      | none => phLoop rest hunks none

/-- Model of ParseHunks from formatter_diff.go. -/
def ParseHunks (content : Str) : List DiffHunk :=
  phLoop (splitOnNl content) [] none

/-! Specification-level restatement of the hunk parser, written from the
claim text: skip the file header lines, ignore everything before the first
hunk header, cut one hunk per header line, classify each body line by its
first character, flush the final hunk at end of input. -/

/-- Classification of a hunk body line by its first character, as the
claim words it. -/
def specClassify : Str → DiffLine
  | [] => ⟨.context, []⟩
  | c :: rest =>
    if c = '+' then ⟨.added, rest⟩
    else if c = '-' then ⟨.removed, rest⟩
    else if c = ' ' then ⟨.context, rest⟩
    else ⟨.context, c :: rest⟩

/-- Spec-level hunk grouping over a line list with the file header lines
already removed. -/
def specHunks : List Str → List DiffHunk
  | [] => []
  | l :: rest =>
    if strStartsWith l (str "@@") then
      ⟨l, (rest.takeWhile (fun x => !strStartsWith x (str "@@"))).map specClassify,
        (parseHunkHeaderNums l).1, (parseHunkHeaderNums l).2⟩
        :: specHunks (rest.dropWhile (fun x => !strStartsWith x (str "@@")))
    else specHunks rest
termination_by ls => ls.length
decreasing_by
  all_goals simp only [List.length_cons]
  all_goals first
    | omega
    | exact Nat.lt_succ_of_le (List.Sublist.length_le (List.dropWhile_sublist _))

/-- Continuation of specHunks with an open hunk carried in. -/
def specHunksCont (h : DiffHunk) (ls : List Str) : List DiffHunk :=
  { h with lines := h.lines ++ (ls.takeWhile (fun x => !strStartsWith x (str "@@"))).map specClassify }
    :: specHunks (ls.dropWhile (fun x => !strStartsWith x (str "@@")))

/-- Spec-level restatement of ParseHunks. -/
def parseHunksSpec (content : Str) : List DiffHunk :=
  specHunks ((splitOnNl content).filter
    (fun l => !(strStartsWith l (str "---") || strStartsWith l (str "+++"))))

/-! Block data model and page splitting, from the parser source. Fields not
set at a Go composite literal take the Go zero value: empty string, zero,
nil slice, BlockContentPlain, SourceOther. -/

inductive SourceType where
  | markdown
  | chat
  | shell
  | other
deriving DecidableEq, Repr

structure Block where
  name : Str
  content : Str
  lineNum : Nat
  fullText : Str
  pages : List Str
  totalPages : Nat
  contentType : BlockContentType
  pageTypes : List BlockContentType
  pageMeta : List Str
  sourceType : SourceType
deriving DecidableEq, Repr

/-- Fixed page size LinesPerPage from the source. -/
def LinesPerPage : Nat := 50

/-- Model of the trailing blank line trim loop used by createBlock and
ParseContinuous. -/
def trimTrailingEmpty (lines : List Str) : List Str :=
  (lines.reverse.dropWhile (fun l => l.isEmpty)).reverse

/-- Model of splitDiffIntoHunkPages: one page per hunk, each page holding
the entire diff text. -/
def splitDiffIntoHunkPages (content : Str) : List Str :=
  let hunks := ParseHunks content
  if hunks.isEmpty then [content]
  else List.replicate hunks.length content

/-- Model of createBlock from the markdown parser. -/
def createBlock (header : Str) (contentLines0 : List Str) (lineNum : Nat) : Block :=
  let contentLines := trimTrailingEmpty contentLines0
  let fullContent := joinNl contentLines
  let contentType := DetectBlockContentType fullContent
  let pages :=
    if contentType = .diff then splitDiffIntoHunkPages fullContent
    else splitIntoPages contentLines LinesPerPage
  { name := header, content := fullContent, lineNum := lineNum,
    fullText := str "# " ++ header ++ '\n' :: fullContent,
    pages := pages, totalPages := pages.length, contentType := contentType,
    pageTypes := [], pageMeta := [], sourceType := .markdown }

def mdIsH1 (l : Str) : Bool :=
  strStartsWith l (str "# ") && !strStartsWith l (str "## ")

def mdIsH2 (l : Str) : Bool :=
  strStartsWith l (str "## ") && !strStartsWith l (str "### ")

/-- Model of the MarkdownParser.Parse loop; an empty currentHeader plays
the role of the Go empty string meaning no open block. -/
def mdLoop : List (Nat × Str) → Str → List Str → Nat → List Block → List Block
  | [], currentHeader, curLines, startLine, blocks =>
    blocks ++ (if currentHeader.isEmpty then [] else [createBlock currentHeader curLines startLine])
  | (i, line) :: rest, currentHeader, curLines, startLine, blocks =>
    if mdIsH1 line || mdIsH2 line then
      let blocks2 := blocks ++
        (if currentHeader.isEmpty then [] else [createBlock currentHeader curLines startLine])
      let hdr := trimSpace (if mdIsH1 line then line.drop 2 else line.drop 3)
      mdLoop rest hdr [] i blocks2
    else if !currentHeader.isEmpty then mdLoop rest currentHeader (curLines ++ [line]) startLine blocks
    else mdLoop rest currentHeader curLines startLine blocks

/-- Model of MarkdownParser.Parse. -/
def markdownParse (content : Str) : List Block :=
  mdLoop (splitOnNl content).enum [] [] 0 []

/-- Breadcrumb text from an active h1/h2 pair, from ParseContinuous. -/
def breadcrumbOf : Str × Str → Str
  | (h1, h2) =>
    if !h1.isEmpty && !h2.isEmpty then h1 ++ str " > " ++ h2
    else if !h1.isEmpty then h1
    else if !h2.isEmpty then h2
    else str "Document"

/-- Per-line active h1/h2 header state table, from ParseContinuous. -/
def headerStatesGo : List Str → Str × Str → List (Str × Str)
  | [], _ => []
  | l :: rest, (h1, h2) =>
    let st :=
      if mdIsH1 l then (trimSpace (l.drop 2), ([] : Str))
      else if mdIsH2 l then (h1, trimSpace (l.drop 3))
      else (h1, h2)
    st :: headerStatesGo rest st

/-- Model of MarkdownParser.ParseContinuous. The Go terminal height is an
int; for heights below 4 the Go subtraction is negative and is clamped to
10 exactly as the truncated Nat subtraction is. -/
def parseContinuous (content : Str) (termHeight : Nat) : List Block :=
  let maxLines := 50
  let lpp0 := termHeight - 4
  let lpp1 := if lpp0 < 10 then 10 else lpp0
  let linesPerPage := if lpp1 > maxLines then maxLines else lpp1
  let lines := trimTrailingEmpty (splitOnNl content)
  if lines.isEmpty then
    [{ name := str "Document", content := [], lineNum := 0, fullText := [],
       pages := [[]], totalPages := 1, contentType := .plain,
       pageTypes := [], pageMeta := [], sourceType := .other }]
  else
    let headerAtLine := headerStatesGo lines ([], [])
    let pages := splitIntoPages lines linesPerPage
    let pageMeta := (List.range pages.length).map (fun i =>
      if h : i * linesPerPage < headerAtLine.length then
        breadcrumbOf (headerAtLine.get ⟨i * linesPerPage, h⟩)
      else [])
    [{ name := pageMeta.headD [], content := content, lineNum := 0, fullText := content,
       pages := pages, totalPages := pages.length, contentType := .plain,
       pageTypes := [], pageMeta := pageMeta, sourceType := .other }]

/-! BlockIndex, from the block index source. -/

/-- Model of the name index map built by NewBlockIndex: a Go map is a
function from keys to optional values, and the construction loop inserts
lowercase(name) with plain map assignment for every block in order. -/
def nameIndexOf (blocks : List Block) : Str → Option Nat :=
  blocks.enum.foldl
    (fun m p k => if k = toLowerStr p.2.name then some p.1 else m k)
    (fun _ => none)

/-- Index of the last block whose lowercased name equals the key. -/
def lastIdxWith (blocks : List Block) (k : Str) : Option Nat :=
  ((blocks.enum.filter (fun p => toLowerStr p.2.name == k)).map (fun p => p.1)).getLast?

/-! DiffParser, from content_type.go. -/

/-- Model of GetFileFromDiff applied to the split line list. -/
def getFileFromDiffLines : List Str → Str
  | [] => str "file"
  | l :: rest =>
    if strStartsWith l (str "+++ ") then
      let path := l.drop 4
      let path2 := if strStartsWith path (str "b/") then path.drop 2 else path
      match strIndexOf path2 (str "\t") with
      | some idx => path2.take idx
      | none => path2
    else getFileFromDiffLines rest

/-- Model of GetFileFromDiff. -/
def GetFileFromDiff (diffContent : Str) : Str :=
  getFileFromDiffLines (splitOnNl diffContent)

/-- Model of DiffParser.Parse. -/
def diffParserParse (content : Str) : List Block :=
  if DetectBlockContentType content ≠ .diff then
    [{ name := str "diff", content := content, lineNum := 0, fullText := content,
       pages := [content], totalPages := 1, contentType := .plain,
       pageTypes := [], pageMeta := [], sourceType := .other }]
  else
    let hunks := ParseHunks content
    if hunks.isEmpty then
      [{ name := str "diff", content := content, lineNum := 0, fullText := content,
         pages := [content], totalPages := 1, contentType := .diff,
         pageTypes := [.diff], pageMeta := [], sourceType := .other }]
    else
      let filename0 := GetFileFromDiff content
      let filename := if filename0.isEmpty then str "diff" else filename0
      [{ name := filename, content := content, lineNum := 0, fullText := content,
         pages := List.replicate hunks.length content,
         totalPages := hunks.length, contentType := .diff,
         pageTypes := List.replicate hunks.length .diff,
         pageMeta := [], sourceType := .other }]

/-- Model of FindBlock returning the index of the returned block: exact
case-insensitive lookup through the name map first, else the first block
whose lowercased name contains the query. -/
def FindBlockIdx (blocks : List Block) (query : Str) : Option Nat :=
  let q := toLowerStr (trimSpace query)
  match nameIndexOf blocks q with
  | some i => some i
  | none =>
    ((blocks.enum.filter (fun p => strContains (toLowerStr p.2.name) q)).map
      (fun p => p.1)).head?

/-! TxtParser, from the shell text parser source. -/

/-- Model of the tview tag removal regexp replace inside
extractCommandFromStyledLine: each leftmost bracket group up to the first
closing bracket is removed. -/
def stripTags : Str → Str
  | [] => []
  | '[' :: rest =>
    if rest.contains ']' then
      stripTags ((rest.dropWhile (fun c => !(c == ']'))).drop 1)
    else '[' :: stripTags rest
  | c :: rest => c :: stripTags rest
termination_by s => s.length
decreasing_by
  all_goals simp only [List.length_cons]
  · have h1 : (rest.dropWhile (fun c => !(c == ']'))).length ≤ rest.length :=
      List.Sublist.length_le (List.dropWhile_sublist _)
    have h2 := List.length_drop 1 (rest.dropWhile (fun c => !(c == ']')))
    omega
  · omega
  · omega

/-- Model of extractCommandFromStyledLine. -/
def extractCommandFromStyledLine (line : Str) : Str :=
  trimSpace (stripTags line)

/-- Display name truncation to 40 characters used by TxtParser. -/
def truncName (s : Str) : Str :=
  if 40 < s.length then s.take 40 ++ str "..." else s

/-- Block built when a txt segment is flushed: Content joins the collected
lines, Pages splits them; unset Go fields keep zero values. -/
def mkTxtBlock (name : Str) (blockNum : Nat) (lines : List Str) : Block :=
  { name := name, content := joinNl lines, lineNum := blockNum, fullText := [],
    pages := splitIntoPages lines LinesPerPage,
    totalPages := (splitIntoPages lines LinesPerPage).length,
    contentType := .plain, pageTypes := [], pageMeta := [], sourceType := .shell }

/-- Flush of the current txt block: emitted only when a block is open and
its collected line list is non-empty. -/
def txtFlush (cb : Option (Str × Nat)) (curLines : List Str) : List Block :=
  match cb, curLines with
  | some (n, bn), l :: ls => [mkTxtBlock n bn (l :: ls)]
  | _, _ => []

/-- Model of the TxtParser.Parse scanning loop, structurally recursive on
a fuel argument that the wrapper below always supplies in excess. The
first component of the open-block pair is its display name, the second
the stored block number. A standalone shell marker line consumes the
following command line too, mirroring the index skip in the source. -/
def txtLoopF : Nat → List Str → Option (Str × Nat) → List Str → Nat → List Block → List Block
  | 0, _, _, _, _, blocks => blocks
  | _ + 1, [], cb, curLines, _, blocks => blocks ++ txtFlush cb curLines
  | fuel + 1, line :: rest, cb, curLines, blockNum, blocks =>
    if trimSpace line = str "shell" then
      let blocks2 := blocks ++ txtFlush cb curLines
      let bn := blockNum + 1
      match rest with
      | next :: rest2 =>
        let command0 := extractCommandFromStyledLine next
        let command1 := if command0.isEmpty then str "shell" else command0
        txtLoopF fuel rest2 (some (truncName command1, bn)) [next] bn blocks2
      | [] => txtLoopF fuel [] (some (str "shell", bn)) [] bn blocks2
    else if strStartsWith line (str "$ ") then
      let blocks2 := blocks ++ txtFlush cb curLines
      let bn := blockNum + 1
      let name0 := line.drop 2
      let name1 :=
        match strIndexOf name0 (str " (") with
        | some idx => if 0 < idx then name0.take idx else name0
        | none => name0
      txtLoopF fuel rest (some (truncName name1, bn)) [line] bn blocks2
    else
      match cb with
      | some _ => txtLoopF fuel rest cb (curLines ++ [line]) blockNum blocks
      | none =>
        if !(trimSpace line).isEmpty then
          txtLoopF fuel rest (some (str "Output", blockNum + 1)) [line] (blockNum + 1) blocks
        else txtLoopF fuel rest none [] blockNum blocks

/-- The TxtParser.Parse scanning loop with its always-sufficient fuel. -/
def txtLoop (lines : List Str) (cb : Option (Str × Nat)) (curLines : List Str)
    (blockNum : Nat) (blocks : List Block) : List Block :=
  txtLoopF (lines.length + 1) lines cb curLines blockNum blocks

/-- Model of TxtParser.Parse. -/
def txtParse (content : Str) : List Block :=
  let blocks := txtLoop (splitOnNl content) none [] 0 []
  if blocks.isEmpty && !(trimSpace content).isEmpty then
    [{ name := str "Output", content := content, lineNum := 1, fullText := [],
       pages := splitIntoPages (splitOnNl content) LinesPerPage,
       totalPages := (splitIntoPages (splitOnNl content) LinesPerPage).length,
       contentType := .plain, pageTypes := [], pageMeta := [], sourceType := .shell }]
  else blocks

/-! JSONL transcript parser, from parser_jsonl.go. A decoded JSON value is
modelled by JValue; a transcript line is modelled by the result of the
encoding/json decode of that line into a Go string map: none for a blank
line, a decode error, or a non-object line, all of which the parser skips
identically. JSON numbers decode to Go float64; the parser only ever
truncates them with int(), and the integer-valued numbers the claims
concern are modelled directly with Int. -/

inductive JValue where
  | jnull
  | jbool (b : Bool)
  | jnum (n : Int)
  | jstr (s : Str)
  | jarr (items : List JValue)
  | jobj (fields : List (Str × JValue))

abbrev JMap := List (Str × JValue)

/-- Lookup in a decoded Go map; decoded maps bind each key once. -/
def mapGet : JMap → Str → Option JValue
  | [], _ => none
  | (k, v) :: rest, key => if k = key then some v else mapGet rest key

/-- Go type assertion .(string) on an indexed value. -/
def asStr : Option JValue → Option Str
  | some (.jstr s) => some s
  | _ => none

/-- Go type assertion .([]interface) on an indexed value. -/
def asArr : Option JValue → Option (List JValue)
  | some (.jarr xs) => some xs
  | _ => none

/-- Go type assertion .(map[string]interface) on an indexed value. -/
def asMap : Option JValue → Option JMap
  | some (.jobj f) => some f
  | _ => none

/-- Go type assertion .(float64) on an indexed value, for integer-valued
numbers. -/
def asNum : Option JValue → Option Int
  | some (.jnum n) => some n
  | _ => none

def getStr (m : JMap) (k : Str) : Option Str := asStr (mapGet m k)

/-- Two-valued Go string assertion with the zero value for failure. -/
def getStrD (m : JMap) (k : Str) : Str := (getStr m k).getD []

def getMap (m : JMap) (k : Str) : Option JMap := asMap (mapGet m k)

def getArr (m : JMap) (k : Str) : Option (List JValue) := asArr (mapGet m k)

/-- Two-valued Go float64 assertion with the zero value for failure. -/
def getNumD (m : JMap) (k : Str) : Int := (asNum (mapGet m k)).getD 0

/-- One item check of the isToolResultMessage scan. -/
def isToolResultItem : JValue → Bool
  | .jobj im => getStrD im (str "type") == str "tool_result"
  | _ => false

/-- Model of JSONLParser.isToolResultMessage. -/
def isToolResultMessage (msg : JMap) : Bool :=
  match getMap msg (str "message") with
  | none => false
  | some message =>
    match asArr (mapGet message (str "content")) with
    | some arr => arr.any isToolResultItem
    | none => false

/-- Model of hasStructuredPatch. -/
def hasStructuredPatch (msg : JMap) : Bool :=
  match getMap msg (str "toolUseResult") with
  | none => false
  | some tr =>
    match getArr tr (str "structuredPatch") with
    | none => false
    | some patch => decide (0 < patch.length)

/-- Rendering of one structured patch hunk inside extractStructuredPatch:
the hunk header line followed by each string line verbatim, each
newline-terminated; a non-object entry contributes nothing and a missing
line list leaves just the header. -/
def renderPatchHunk (hd : JValue) : Str :=
  match hd with
  | .jobj hk =>
    (str "@@ -" ++ intToStr (getNumD hk (str "oldStart")) ++ str "," ++
      intToStr (getNumD hk (str "oldLines")) ++ str " +" ++
      intToStr (getNumD hk (str "newStart")) ++ str "," ++
      intToStr (getNumD hk (str "newLines")) ++ str " @@" ++ ['\n']) ++
    (match getArr hk (str "lines") with
     | none => []
     | some lines =>
       (lines.filterMap (fun ld =>
         match ld with
         | .jstr l => some (l ++ ['\n'])
         | _ => none)).flatten)
  | _ => []

/-- Model of extractStructuredPatch. -/
def extractStructuredPatch (msg : JMap) : Str :=
  match getMap msg (str "toolUseResult") with
  | none => []
  | some tr =>
    let filePath0 := getStrD tr (str "filePath")
    let filePath := if filePath0.isEmpty then str "file" else filePath0
    match getArr tr (str "structuredPatch") with
    | none => []
    | some patch =>
      if patch.isEmpty then []
      else
        (str "--- a/" ++ filePath ++ ['\n']) ++
        (str "+++ b/" ++ filePath ++ ['\n']) ++
        (patch.map renderPatchHunk).flatten

/-- One item of the ExtractUserContent array walk: text items keep their
non-empty text, tool results keep their non-empty string content. -/
def userTextItem : JValue → Option Str
  | .jobj im =>
    if getStrD im (str "type") == str "text" then
      match getStr im (str "text") with
      | some t => if t.isEmpty then none else some t
      | none => none
    else if getStrD im (str "type") == str "tool_result" then
      match getStr im (str "content") with
      | some t => if t.isEmpty then none else some t
      | none => none
    else none
  | _ => none

/-- Model of JSONLParser.ExtractUserContent. -/
def ExtractUserContent (msg : JMap) : Str :=
  match getMap msg (str "message") with
  | none => []
  | some message =>
    match mapGet message (str "content") with
    | none => []
    | some (.jstr s) => s
    | some (.jarr items) => joinNl (items.filterMap userTextItem)
    | some _ => []

/-- One item of the ExtractAssistantContent array walk: text items are
kept unless they carry raw tool invocation markup. -/
def assistantTextItem : JValue → Option Str
  | .jobj im =>
    if getStrD im (str "type") == str "text" then
      match getStr im (str "text") with
      | some t =>
        if strContains t (str "<function_calls>") || strContains t (str "<invoke") then none
        else some t
      | none => none
    else none
  | _ => none

/-- Model of JSONLParser.ExtractAssistantContent. -/
def ExtractAssistantContent (msg : JMap) : Str :=
  match getMap msg (str "message") with
  | none => []
  | some message =>
    match mapGet message (str "content") with
    | some (.jarr items) => joinNl (items.filterMap assistantTextItem)
    | _ => []

/-! Shell output formatting, from the shell formatter source, consumed by
ExtractToolResultContent. -/

structure ShellOutput where
  toolName : Str
  command : Str
  stdout : Str
  stderr : Str
  filePath : Str
  fileCount : Int
  fileList : List Str
deriving DecidableEq

/-- Model of ParseToolResult. -/
def ParseToolResult (tr : JMap) : Option ShellOutput :=
  if (mapGet tr (str "structuredPatch")).isSome then none
  else if (mapGet tr (str "newTodos")).isSome then none
  else
    match getStr tr (str "stdout") with
    | some stdout =>
      some { toolName := str "Bash", command := [], stdout := stdout,
             stderr := getStrD tr (str "stderr"), filePath := [], fileCount := 0,
             fileList := [] }
    | none =>
      match getMap tr (str "file") with
      | some file =>
        some { toolName := str "Read", command := [], stdout := getStrD file (str "content"),
               stderr := [], filePath := getStrD file (str "filePath"), fileCount := 0,
               fileList := [] }
      | none =>
        match getArr tr (str "filenames") with
        | some filenames =>
          let fileList := filenames.filterMap (fun f =>
            match f with
            | .jstr s => some s
            | _ => none)
          let fileCount :=
            match asNum (mapGet tr (str "numFiles")) with
            | some n => n
            | none => (filenames.length : Int)
          some { toolName := str "Glob", command := [], stdout := [], stderr := [],
                 filePath := [], fileCount := fileCount, fileList := fileList }
        | none =>
          match getStr tr (str "filePath") with
          | some fp =>
            some { toolName := str "Edit", command := [], stdout := [], stderr := [],
                   filePath := fp, fileCount := 0, fileList := [] }
          | none => none

/-- Match of the ANSI escape regexp at the start of the input, returning
the remainder after the escape when it matches: the escape byte, an
opening bracket, a run of digits and semicolons, and one letter. -/
def ansiMatchRest : Str → Option Str
  | esc :: br :: r2 =>
    if esc = Char.ofNat 27 && br = '[' then
      match r2.drop ((r2.takeWhile (fun ch => ch.isDigit || ch == ';')).length) with
      | l :: r3 => if l.isAlpha then some r3 else none
      | [] => none
    else none
  | _ => none

set_option linter.unusedVariables false in
/-- Model of the ANSI escape removal regexp replace in StripANSI: leftmost
matches are removed, everything else is kept. -/
def stripAnsi : Str → Str
  | [] => []
  | c :: rest =>
    match h : ansiMatchRest (c :: rest) with
    | some r3 => stripAnsi r3
    | none => c :: stripAnsi rest
termination_by s => s.length
decreasing_by
  · cases t with
    | nil => simp [ansiMatchRest] at h
    | cons d r2 =>
      simp only [ansiMatchRest] at h
      split at h
      · split at h
        · rename_i l r4 hdrop
          split at h
          · have hlen : (r2.drop
                ((r2.takeWhile (fun ch => ch.isDigit || ch == ';')).length)).length ≤
                r2.length := by
              rw [List.length_drop]
              omega
            rw [hdrop] at hlen
            simp only [List.length_cons] at hlen ⊢
            injection h with h
            subst h
            omega
          · exact absurd h (by simp)
        · exact absurd h (by simp)
      · exact absurd h (by simp)
  · simp only [List.length_cons]
    omega

/-- Model of getFirstLine: the first line whose trim is non-blank,
truncated at 60 characters. -/
def firstNonEmptyLine : List Str → Str
  | [] => []
  | l :: rest =>
    let t := trimSpace l
    if t.isEmpty then firstNonEmptyLine rest
    else if 60 < t.length then t.take 60 ++ str "..." else t

def shellHeaderColor : Str := str "[#179299:-:b]"

def shellResetColor : Str := str "[-]"

def shellFilePathColor : Str := str "[#1e66f5]"

def shellTruncatedColor : Str := str "[#808080]"

/-- Model of ShellFormatter.formatHeader, which Format returns directly in
compact mode. -/
def formatShellHeader (output : ShellOutput) : Str :=
  if output.toolName.isEmpty then []
  else if output.toolName == str "Bash" then
    let preview := firstNonEmptyLine (splitOnNl (stripAnsi output.stdout))
    if !preview.isEmpty then
      shellHeaderColor ++ str "Bash:" ++ shellResetColor ++ str " " ++ preview
    else shellHeaderColor ++ str "Bash:" ++ shellResetColor ++ str " (no output)"
  else if output.toolName == str "Read" then
    if !output.filePath.isEmpty then
      shellHeaderColor ++ str "Read:" ++ shellResetColor ++ str " " ++
        shellFilePathColor ++ output.filePath ++ shellResetColor
    else shellHeaderColor ++ str "Read:" ++ shellResetColor
  else if output.toolName == str "Glob" || output.toolName == str "Grep" then
    let base :=
      if !output.command.isEmpty then
        shellHeaderColor ++ output.toolName ++ str ":" ++ shellResetColor ++ str " " ++
          output.command
      else shellHeaderColor ++ output.toolName ++ str ":" ++ shellResetColor
    if 0 < output.fileCount then
      base ++ str " " ++ shellTruncatedColor ++ str "(" ++ intToStr output.fileCount ++
        str " files)" ++ shellResetColor
    else base
  else
    if !output.command.isEmpty then
      shellHeaderColor ++ output.toolName ++ str ":" ++ shellResetColor ++ str " " ++
        output.command
    else shellHeaderColor ++ output.toolName ++ str ":" ++ shellResetColor

/-- One item of the tool result fallback walk in
ExtractToolResultContent. -/
def toolResultFallbackItem : JValue → Option Str
  | .jobj im =>
    if getStrD im (str "type") == str "tool_result" then
      match getStr im (str "content") with
      | some rc =>
        if rc.isEmpty then none
        else some (formatShellHeader
          { toolName := str "Tool", command := [], stdout := rc, stderr := [],
            filePath := [], fileCount := 0, fileList := [] })
      | none => none
    else none
  | _ => none

/-- Model of JSONLParser.ExtractToolResultContent. -/
def ExtractToolResultContent (msg : JMap) : Str :=
  let fallback :=
    match getMap msg (str "message") with
    | none => []
    | some message =>
      match asArr (mapGet message (str "content")) with
      | some items => ((items.filterMap toolResultFallbackItem).head?).getD []
      | none => []
  match getMap msg (str "toolUseResult") with
  | some tr =>
    match ParseToolResult tr with
    | some output => formatShellHeader output
    | none => fallback
  | none => fallback

/-! Conversation turns and the JSONL parse loop, from parser_jsonl.go. The
assistant part renderer formatAssistantContent delegates to the external
markdown styling collaborator; it is passed in as a function parameter
fmtA, matching the collaborator contract the spec gives. -/

inductive PartType where
  | user
  | diff
  | assistant
  | tool_result
  | question
deriving DecidableEq, Repr

structure TurnPart where
  ptype : PartType
  content : Str
  meta : Str
deriving DecidableEq, Repr

structure ConversationTurn where
  parts : List TurnPart
  lineNum : Nat
deriving DecidableEq, Repr

/-- One line of colorizeDiffLines: kept lines get their color tags, file
header lines are dropped. -/
def colorizeOne (line : Str) : Option Str :=
  if strStartsWith line (str "+") && !strStartsWith line (str "+++") then
    some (str "[white:#2d5a2d]" ++ line ++ str "[-:-]")
  else if strStartsWith line (str "-") && !strStartsWith line (str "---") then
    some (str "[white:#5a2d5a]" ++ line ++ str "[-:-]")
  else if strStartsWith line (str "@@") then
    some (str "[#808080]" ++ line ++ str "[-]")
  else if strStartsWith line (str "---") || strStartsWith line (str "+++") then none
  else some line

/-- Model of colorizeDiffLines: the Go builder appends each kept line with
a newline and trims the one trailing newline, which joins the kept lines
with newlines. -/
def colorizeDiffLines (diffText : Str) : Str :=
  joinNl ((splitOnNl diffText).filterMap colorizeOne)

/-- Suffix of a path after its last slash, as computed by the
LastIndex slash slice in CreateTurnBlock. -/
def afterLastSlash (s : Str) : Str :=
  if s.contains '/' then (s.reverse.takeWhile (fun c => !(c == '/'))).reverse else s

/-- Rendering of one turn part inside CreateTurnBlock. -/
def renderTurnPart (fmtA : Str → Str) (part : TurnPart) : Str :=
  match part.ptype with
  | .user => str "[white:#303030]" ++ part.content ++ str "[-:-:-]"
  | .diff =>
    (str "[#808080]--- " ++ afterLastSlash part.meta ++ str " ---[-]") ++
      '\n' :: colorizeDiffLines part.content
  | .assistant => fmtA part.content
  | .tool_result => part.content
  | .question => str "[yellow][?][-] " ++ part.content

/-- Model of JSONLParser.CreateTurnBlock: parts render in order, joined by
blank lines, into a single-page chat block. -/
def CreateTurnBlock (fmtA : Str → Str) (turn : ConversationTurn) (turnNumber : Nat) : Block :=
  let fullContent := joinSep (str "\n\n") (turn.parts.map (renderTurnPart fmtA))
  { name := str "block-" ++ natToStr turnNumber, content := fullContent,
    lineNum := turn.lineNum, fullText := fullContent,
    pages := [fullContent], totalPages := 1, contentType := .plain,
    pageTypes := [.plain], pageMeta := [[]], sourceType := .chat }

/-- The four JSONL content filters; a missing Go map key reads as false,
and the nil-map default is user, assistant and diff enabled. -/
structure Filters where
  user : Bool
  assistant : Bool
  diff : Bool
  tool_result : Bool
deriving DecidableEq, Repr

def defaultFilters : Filters := ⟨true, true, true, false⟩

/-- State of the JSONLParser.Parse loop. -/
structure JState where
  blocks : List Block
  currentTurn : Option ConversationTurn
  turnNumber : Nat
deriving Repr

/-- Flush of the open turn into a block, as done when a new turn starts
and at end of input. -/
def flushTurn (fmtA : Str → Str) (st : JState) : List Block :=
  match st.currentTurn with
  | some ct => [CreateTurnBlock fmtA ct st.turnNumber]
  | none => []

/-- Parts a tool result line appends to the open turn: a diff part when
the diff filter is on and a non-empty structured patch is carried, then a
tool result part when that filter is on and the formatted summary is
non-empty. -/
def toolResultParts (f : Filters) (msg : JMap) : List TurnPart :=
  (if f.diff && hasStructuredPatch msg then
    if (extractStructuredPatch msg).isEmpty then []
    else
      [⟨.diff, extractStructuredPatch msg,
        match getMap msg (str "toolUseResult") with
        | some tr => getStrD tr (str "filePath")
        | none => []⟩]
  else []) ++
  (if f.tool_result then
    if (ExtractToolResultContent msg).isEmpty then []
    else [⟨.tool_result, ExtractToolResultContent msg, []⟩]
  else [])

/-- One step of the JSONLParser.Parse loop on the decoded line at index
lineNum. -/
def jsonlStep (f : Filters) (fmtA : Str → Str) (st : JState) (lineNum : Nat) :
    Option JMap → JState
  | none => st
  | some msg =>
    match getStr msg (str "type") with
    | none => st
    | some msgType =>
      if msgType = str "user" then
        if isToolResultMessage msg then
          match st.currentTurn with
          | some ct =>
            { st with currentTurn := some { ct with parts := ct.parts ++ toolResultParts f msg } }
          | none => st
        else if !f.user then st
        else
          { blocks := st.blocks ++ flushTurn fmtA st,
            currentTurn :=
              if (ExtractUserContent msg).isEmpty then st.currentTurn
              else some ⟨[⟨.user, ExtractUserContent msg, []⟩], lineNum⟩,
            turnNumber := st.turnNumber + 1 }
      else if msgType = str "assistant" then
        match st.currentTurn with
        | some ct =>
          if f.assistant then
            if (ExtractAssistantContent msg).isEmpty then st
            else
              let ct2 : ConversationTurn :=
                { ct with parts := ct.parts ++ [⟨.assistant, ExtractAssistantContent msg, []⟩] }
              { st with currentTurn := some ct2 }
          else st
        | none => st
      else st

/-- The JSONLParser.Parse loop over the decoded lines with their
indices. -/
def jsonlLoop (f : Filters) (fmtA : Str → Str) : List (Option JMap) → Nat → JState → JState
  | [], _, st => st
  | item :: rest, lineNum, st => jsonlLoop f fmtA rest (lineNum + 1) (jsonlStep f fmtA st lineNum item)

/-- Model of JSONLParser.Parse: run the loop from the empty state and
flush any still open turn at end of input. -/
def jsonlParse (f : Filters) (fmtA : Str → Str) (lines : List (Option JMap)) : List Block :=
  let st := jsonlLoop f fmtA lines 0 ⟨[], none, 0⟩
  st.blocks ++ flushTurn fmtA st

/-- Last path component, as computed by the Split slash slice in
createDiffBlock. -/
def lastPathComponent (s : Str) : Str :=
  (splitOnChar '/' s).getLastD []

/-- Model of JSONLParser.createDiffBlock. -/
def createDiffBlock (msg : JMap) (diffNumber : Nat) (lineNum : Nat) : Option Block :=
  let diffContent := extractStructuredPatch msg
  if diffContent.isEmpty then none
  else
    let filePath0 :=
      match getMap msg (str "toolUseResult") with
      | some tr => getStrD tr (str "filePath")
      | none => []
    let filePath :=
      if filePath0.isEmpty then str "diff-" ++ natToStr diffNumber
      else lastPathComponent filePath0
    let numHunks :=
      if (ParseHunks diffContent).length = 0 then 1 else (ParseHunks diffContent).length
    some { name := str "diff: " ++ filePath, content := diffContent, lineNum := lineNum,
           fullText := diffContent, pages := List.replicate numHunks diffContent,
           totalPages := numHunks, contentType := .diff,
           pageTypes := List.replicate numHunks .diff, pageMeta := [],
           sourceType := .other }

/-- Block built by ParseSingleLine for a user or assistant line. -/
def mkSingleBlock (turnNumber : Nat) (contentLines : List Str) : Block :=
  { name := str "block-" ++ natToStr turnNumber, content := joinNl contentLines,
    lineNum := 0, fullText := joinNl contentLines,
    pages := splitIntoPages contentLines LinesPerPage,
    totalPages := (splitIntoPages contentLines LinesPerPage).length,
    contentType := .plain, pageTypes := [], pageMeta := [], sourceType := .other }

/-- Model of JSONLParser.ParseSingleLine on a decoded line. -/
def parseSingleLine (f : Filters) : Option JMap → Nat → Option Block
  | none, _ => none
  | some msg, turnNumber =>
    match getStr msg (str "type") with
    | none => none
    | some msgType =>
      if msgType = str "user" then
        if isToolResultMessage msg then
          if f.diff && hasStructuredPatch msg then createDiffBlock msg turnNumber 0
          else none
        else if !f.user then none
        else
          if (ExtractUserContent msg).isEmpty then none
          else some (mkSingleBlock turnNumber
            [str "[cyan]U:[-] " ++ ExtractUserContent msg])
      else if msgType = str "assistant" then
        if !f.assistant then none
        else
          if (ExtractAssistantContent msg).isEmpty then none
          else
            match splitOnNl (ExtractAssistantContent msg) with
            | [] => some (mkSingleBlock turnNumber [])
            | l0 :: restLines => some (mkSingleBlock turnNumber ((str "A: " ++ l0) :: restLines))
      else none

/-- The observables of the Parse loop state that control block emission:
the block count, whether a turn is open, and the turn counter. -/
def JStateRel (a b : JState) : Prop :=
  a.blocks.length = b.blocks.length ∧
  a.currentTurn.isSome = b.currentTurn.isSome ∧
  a.turnNumber = b.turnNumber

/-- Shape of one structuredPatch hunk as the synthesizer reads it: the
four numeric fields and the list of patch lines. -/
structure SPatchHunk where
  oldStart : Nat
  oldLines : Nat
  newStart : Nat
  newLines : Nat
  lines : List Str
deriving DecidableEq, Repr

/-- The JSON object carrying one structured patch hunk. -/
def mkPatchHunkJ (h : SPatchHunk) : JValue :=
  .jobj [(str "oldStart", .jnum h.oldStart),
         (str "oldLines", .jnum h.oldLines),
         (str "newStart", .jnum h.newStart),
         (str "newLines", .jnum h.newLines),
         (str "lines", .jarr (h.lines.map .jstr))]

/-- A message whose toolUseResult carries a file path and a structured
patch. -/
def mkPatchMsg (path : Str) (hs : List SPatchHunk) : JMap :=
  [(str "toolUseResult", .jobj
     [(str "filePath", .jstr path),
      (str "structuredPatch", .jarr (hs.map mkPatchHunkJ))])]

/-- The hunk header line the synthesizer emits for one hunk. -/
def spHunkHeader (h : SPatchHunk) : Str :=
  str "@@ -" ++ natToStr h.oldStart ++ str "," ++ natToStr h.oldLines ++
  str " +" ++ natToStr h.newStart ++ str "," ++ natToStr h.newLines ++ str " @@"

/-- All lines of the synthesized unified diff, in order: the two file
header lines, then per hunk its header line followed by its patch lines
verbatim. -/
def spLineList (path : Str) (hs : List SPatchHunk) : List Str :=
  (str "--- a/" ++ path) :: (str "+++ b/" ++ path) ::
    hs.flatMap (fun h => spHunkHeader h :: h.lines)

/-- The header facts of a parsed hunk: its header line and the two
captured start numbers. -/
def dProj (d : DiffHunk) : Str × Nat × Nat := (d.header, d.startOld, d.startNew)

theorem natToStrAux_adequate : ∀ (fuel1 : Nat), ∀ (fuel2 n : Nat), n < fuel1 → n < fuel2 →
    natToStrAux fuel1 n = natToStrAux fuel2 n := by
  intro fuel1
  induction fuel1 with
  | zero => intro fuel2 n h1 h2; omega
  | succ f1 ih =>
    intro fuel2 n h1 h2
    cases fuel2 with
    | zero => omega
    | succ f2 =>
      simp only [natToStrAux]
      by_cases h : n < 10
      · simp [h]
      · simp only [if_neg h]
        rw [ih f2 (n / 10) (by omega) (by omega)]

theorem natToStr_eq (n : Nat) : natToStr n =
    if n < 10 then [digitChar n]
    else natToStr (n / 10) ++ [digitChar (n % 10)] := by
  show natToStrAux (n + 1) n = _
  by_cases h : n < 10
  · simp [natToStrAux, h]
  · simp only [natToStrAux, if_neg h]
    rw [natToStrAux_adequate n (n / 10 + 1) (n / 10) (by omega) (by omega)]
    rfl

/- Basic lemmas about the string model. -/

theorem strStartsWith_nil (pre : Str) (h : pre ≠ []) : strStartsWith [] pre = false := by
  cases pre with
  | nil => exact absurd rfl h
  | cons p ps => rfl

theorem strStartsWith_cons (c : Char) (s : Str) (p : Char) (ps : Str) :
    strStartsWith (c :: s) (p :: ps) = (c == p && strStartsWith s ps) := rfl

theorem splitOnChar_ne_nil (sep : Char) (s : Str) : splitOnChar sep s ≠ [] := by
  induction s with
  | nil => simp [splitOnChar]
  | cons c rest ih =>
    simp only [splitOnChar]
    by_cases h : c = sep
    · simp [h]
    · simp only [if_neg h]
      cases hr : splitOnChar sep rest with
      | nil => simp
      | cons h t => simp

theorem splitOnChar_no_sep (sep : Char) (s : Str) (h : sep ∉ s) :
    splitOnChar sep s = [s] := by
  induction s with
  | nil => rfl
  | cons c rest ih =>
    simp only [List.mem_cons, not_or] at h
    have hne : ¬ c = sep := fun hc => h.1 (Eq.symm hc)
    simp only [splitOnChar, if_neg hne, ih h.2]

theorem splitOnChar_append_sep (sep : Char) (a b : Str) (ha : sep ∉ a) :
    splitOnChar sep (a ++ sep :: b) = a :: splitOnChar sep b := by
  induction a with
  | nil => simp [splitOnChar]
  | cons c rest ih =>
    simp only [List.mem_cons, not_or] at ha
    have hne : ¬ c = sep := fun hc => ha.1 (Eq.symm hc)
    simp only [List.cons_append, splitOnChar, if_neg hne]
    simp only [List.append_eq]
    rw [ih ha.2]

theorem joinSep_append (sep : Str) (a b : List Str) (ha : a ≠ []) (hb : b ≠ []) :
    joinSep sep (a ++ b) = joinSep sep a ++ sep ++ joinSep sep b := by
  induction a with
  | nil => exact absurd rfl ha
  | cons x xs ih =>
    cases xs with
    | nil =>
      cases b with
      | nil => exact absurd rfl hb
      | cons y ys => simp [joinSep]
    | cons x2 xs2 =>
      have h2 := ih (by simp)
      have e1 : joinSep sep ((x :: x2 :: xs2) ++ b) =
          x ++ sep ++ joinSep sep ((x2 :: xs2) ++ b) := rfl
      have e2 : joinSep sep (x :: x2 :: xs2) = x ++ sep ++ joinSep sep (x2 :: xs2) := rfl
      rw [e1, h2, e2]
      simp [List.append_assoc]

theorem splitOnNl_joinNl (l : List Str) (hne : l ≠ [])
    (h : ∀ s ∈ l, '\n' ∉ s) : splitOnNl (joinNl l) = l := by
  induction l with
  | nil => exact absurd rfl hne
  | cons x xs ih =>
    cases xs with
    | nil => exact splitOnChar_no_sep '\n' x (h x (by simp))
    | cons x2 xs2 =>
      have hx : '\n' ∉ x := h x (by simp)
      have hrest : ∀ s ∈ x2 :: xs2, '\n' ∉ s := fun s hs => h s (by simp [hs])
      have hj : joinNl (x :: x2 :: xs2) = x ++ '\n' :: joinNl (x2 :: xs2) := by
        simp [joinNl, joinSep]
      rw [show splitOnNl (joinNl (x :: x2 :: xs2)) =
        splitOnChar '\n' (x ++ '\n' :: joinNl (x2 :: xs2)) by rw [← hj]; rfl]
      rw [splitOnChar_append_sep '\n' x _ hx]
      have := ih (by simp) hrest
      simpa [splitOnNl] using congrArg (x :: ·) this

theorem digitChar_toNat (n : Nat) (h : n < 10) : (digitChar n).toNat = 48 + n := by
  interval_cases n <;> decide

theorem digitChar_isDigit (n : Nat) (h : n < 10) : (digitChar n).isDigit = true := by
  interval_cases n <;> decide

theorem natToStr_all_digits (n : Nat) : ∀ c ∈ natToStr n, c.isDigit = true := by
  induction n using Nat.strong_induction_on with
  | _ n ih =>
    rw [natToStr_eq]
    by_cases h : n < 10
    · simp only [if_pos h, List.mem_singleton]
      intro c hc
      subst hc
      exact digitChar_isDigit n h
    · simp only [if_neg h, List.mem_append, List.mem_singleton]
      intro c hc
      rcases hc with hc | hc
      · exact ih (n / 10) (Nat.div_lt_self (by omega) (by omega)) c hc
      · subst hc
        exact digitChar_isDigit (n % 10) (Nat.mod_lt n (by omega))

theorem natToStr_ne_nil (n : Nat) : natToStr n ≠ [] := by
  rw [natToStr_eq]
  by_cases h : n < 10
  · simp [h]
  · simp [h]

theorem isDigit_ne_char (c : Char) (d : Char) (hd : d.isDigit = false)
    (h : c.isDigit = true) : c ≠ d := by
  intro e
  subst e
  rw [h] at hd
  exact absurd hd (by decide)

theorem natToStr_no_nl (n : Nat) : '\n' ∉ natToStr n := by
  intro hmem
  have := natToStr_all_digits n '\n' hmem
  simp [Char.isDigit] at this

theorem foldl_digits_acc (b : Str) : ∀ acc : Nat,
    b.foldl (fun a c => 10 * a + (c.toNat - 48)) acc =
    acc * 10 ^ b.length + b.foldl (fun a c => 10 * a + (c.toNat - 48)) 0 := by
  induction b with
  | nil => intro acc; simp
  | cons c t ih =>
    intro acc
    simp only [List.foldl_cons, List.length_cons]
    rw [ih (10 * acc + (c.toNat - 48)), ih (10 * 0 + (c.toNat - 48))]
    ring

theorem digitsVal_natToStr (n : Nat) : digitsVal (natToStr n) = n := by
  induction n using Nat.strong_induction_on with
  | _ n ih =>
    rw [natToStr_eq]
    by_cases h : n < 10
    · simp only [if_pos h, digitsVal, List.foldl_cons, List.foldl_nil]
      rw [digitChar_toNat n h]
      omega
    · simp only [if_neg h, digitsVal, List.foldl_append]
      have h1 : (natToStr (n / 10)).foldl (fun a c => 10 * a + (c.toNat - 48)) 0 = n / 10 :=
        ih (n / 10) (Nat.div_lt_self (by omega) (by omega))
      rw [h1]
      simp only [List.foldl_cons, List.foldl_nil]
      rw [digitChar_toNat (n % 10) (Nat.mod_lt n (by omega))]
      omega

theorem takeWhile_append_all {α : Type} (p : α → Bool) (a b : List α)
    (ha : ∀ x ∈ a, p x = true) :
    List.takeWhile p (a ++ b) = a ++ List.takeWhile p b := by
  induction a with
  | nil => simp
  | cons x xs ih =>
    have hx : p x = true := ha x (by simp)
    simp only [List.cons_append, List.takeWhile_cons, hx, if_true]
    rw [ih (fun y hy => ha y (by simp [hy]))]

theorem dropWhile_append_all {α : Type} (p : α → Bool) (a b : List α)
    (ha : ∀ x ∈ a, p x = true) :
    List.dropWhile p (a ++ b) = List.dropWhile p b := by
  induction a with
  | nil => simp
  | cons x xs ih =>
    have hx : p x = true := ha x (by simp)
    simp only [List.cons_append, List.dropWhile_cons, hx, if_true]
    exact ih (fun y hy => ha y (by simp [hy]))

theorem chunkJoinF_adequate : ∀ (fuel1 : Nat), ∀ (fuel2 : Nat) (lines : List Str) (n : Nat),
    lines.length ≤ fuel1 → lines.length ≤ fuel2 →
    chunkJoinF fuel1 lines n = chunkJoinF fuel2 lines n := by
  intro fuel1
  induction fuel1 with
  | zero =>
    intro fuel2 lines n h1 h2
    cases lines with
    | nil => cases fuel2 <;> rfl
    | cons l ls => simp at h1
  | succ f1 ih =>
    intro fuel2 lines n h1 h2
    cases lines with
    | nil => cases fuel2 <;> rfl
    | cons l ls =>
      cases fuel2 with
      | zero => simp at h2
      | succ f2 =>
        cases n with
        | zero => rfl
        | succ m =>
          simp only [chunkJoinF]
          congr 1
          apply ih
          · have := List.length_drop (m + 1) (l :: ls)
            simp only [List.length_cons] at this h1 ⊢
            omega
          · have := List.length_drop (m + 1) (l :: ls)
            simp only [List.length_cons] at this h2 ⊢
            omega

theorem chunkJoin_nil (n : Nat) : chunkJoin [] n = [] := rfl

theorem chunkJoin_cons (l : Str) (ls : List Str) (n : Nat) :
    chunkJoin (l :: ls) (n + 1) =
    joinNl ((l :: ls).take (n + 1)) :: chunkJoin ((l :: ls).drop (n + 1)) (n + 1) := by
  show chunkJoinF (ls.length + 1) (l :: ls) (n + 1) = _
  simp only [chunkJoinF]
  congr 1
  apply chunkJoinF_adequate
  · have := List.length_drop (n + 1) (l :: ls)
    simp only [List.length_cons] at this ⊢
    omega
  · exact le_rfl

theorem joinNl_chunkJoin_len (n : Nat) : ∀ (len : Nat) (lines : List Str),
    lines.length ≤ len → lines ≠ [] →
    joinNl (chunkJoin lines (n + 1)) = joinNl lines := by
  intro len
  induction len with
  | zero =>
    intro lines hlen hne
    cases lines with
    | nil => exact absurd rfl hne
    | cons l ls => simp at hlen
  | succ k ih =>
    intro lines hlen hne
    cases lines with
    | nil => exact absurd rfl hne
    | cons l ls =>
      rw [chunkJoin_cons]
      cases hd : (l :: ls).drop (n + 1) with
      | nil =>
        have htake : (l :: ls).take (n + 1) = l :: ls := by
          have h2 := List.take_append_drop (n + 1) (l :: ls)
          rw [hd, List.append_nil] at h2
          exact h2
        rw [chunkJoin_nil, htake]
        simp [joinNl, joinSep]
      | cons d ds =>
        have hdlen : ((l :: ls).drop (n + 1)).length = (l :: ls).length - (n + 1) :=
          List.length_drop (n + 1) (l :: ls)
        have hlt : (d :: ds).length ≤ k := by
          rw [hd] at hdlen
          simp only [List.length_cons] at hdlen hlen ⊢
          omega
        have hrec := ih (d :: ds) hlt (by simp)
        have hjoin : joinNl ((l :: ls).take (n + 1) ++ d :: ds) =
            joinNl ((l :: ls).take (n + 1)) ++ '\n' :: joinNl (d :: ds) := by
          have := joinSep_append ['\n'] ((l :: ls).take (n + 1)) (d :: ds)
            (by simp) (by simp)
          simpa [joinNl] using this
        have hsplit : (l :: ls).take (n + 1) ++ d :: ds = l :: ls := by
          rw [← hd]
          exact List.take_append_drop (n + 1) (l :: ls)
        calc joinNl (joinNl ((l :: ls).take (n + 1)) :: chunkJoin (d :: ds) (n + 1))
            = joinNl ((l :: ls).take (n + 1)) ++ '\n' :: joinNl (chunkJoin (d :: ds) (n + 1)) := by
              cases hc : chunkJoin (d :: ds) (n + 1) with
              | nil => rw [chunkJoin_cons] at hc; simp at hc
              | cons p ps => simp [joinNl, joinSep, hc]
          _ = joinNl ((l :: ls).take (n + 1)) ++ '\n' :: joinNl (d :: ds) := by rw [hrec]
          _ = joinNl ((l :: ls).take (n + 1) ++ d :: ds) := by rw [hjoin]
          _ = joinNl (l :: ls) := by rw [hsplit]

theorem joinNl_chunkJoin (n : Nat) (lines : List Str) (hne : lines ≠ []) :
    joinNl (chunkJoin lines (n + 1)) = joinNl lines :=
  joinNl_chunkJoin_len n lines.length lines le_rfl hne

theorem joinNl_splitIntoPages (lines : List Str) (n : Nat) :
    joinNl (splitIntoPages lines (n + 1)) = joinNl lines := by
  by_cases h : lines.isEmpty
  · have : lines = [] := by cases lines <;> simp_all
    subst this
    simp [splitIntoPages, joinNl, joinSep]
  · have hne : lines ≠ [] := by cases lines <;> simp_all
    have hcne : chunkJoin lines (n + 1) ≠ [] := by
      cases lines with
      | nil => exact absurd rfl hne
      | cons l ls => rw [chunkJoin_cons]; simp
    simp only [splitIntoPages, h, Bool.false_eq_true, if_false]
    have : (chunkJoin lines (n + 1)).isEmpty = false := by
      cases hc : chunkJoin lines (n + 1) with
      | nil => exact absurd hc hcne
      | cons p ps => rfl
    simp only [this, Bool.false_eq_true, if_false]
    exact joinNl_chunkJoin n lines hne

theorem classifyDiffLine_eq_spec (l : Str) : classifyDiffLine l = specClassify l := by
  cases l with
  | nil => rfl
  | cons c rest =>
    simp only [classifyDiffLine, specClassify]
    have e1 : strStartsWith (c :: rest) (str "+") = (c == '+') := by
      show (c == '+' && strStartsWith rest []) = (c == '+')
      simp [strStartsWith]
    have e2 : strStartsWith (c :: rest) (str "-") = (c == '-') := by
      show (c == '-' && strStartsWith rest []) = (c == '-')
      simp [strStartsWith]
    have e3 : strStartsWith (c :: rest) (str " ") = (c == ' ') := by
      show (c == ' ' && strStartsWith rest []) = (c == ' ')
      simp [strStartsWith]
    rw [e1, e2, e3]
    by_cases h1 : c = '+'
    · simp [h1]
    · by_cases h2 : c = '-'
      · simp [h1, h2]
      · by_cases h3 : c = ' '
        · simp [h1, h2, h3]
        · simp [h1, h2, h3]

theorem fileHdr_not_hunkStart (l : Str)
    (h : (strStartsWith l (str "---") || strStartsWith l (str "+++")) = true) :
    strStartsWith l (str "@@") = false := by
  cases l with
  | nil => exact absurd h (by decide)
  | cons c t =>
    have h3 : strStartsWith (c :: t) (str "---") = (c == '-' && strStartsWith t (str "--")) := rfl
    have hp : strStartsWith (c :: t) (str "+++") = (c == '+' && strStartsWith t (str "++")) := rfl
    have ha : strStartsWith (c :: t) (str "@@") = (c == '@' && strStartsWith t (str "@")) := rfl
    rw [h3, hp, Bool.or_eq_true, Bool.and_eq_true, Bool.and_eq_true] at h
    rw [ha]
    rcases h with h1 | h1
    · have hc : c = '-' := eq_of_beq h1.1
      subst hc
      rw [show (('-' : Char) == '@') = false by decide]
      simp
    · have hc : c = '+' := eq_of_beq h1.1
      subst hc
      rw [show (('+' : Char) == '@') = false by decide]
      simp

theorem phLoop_filter (ls : List Str) : ∀ hunks cur,
    phLoop ls hunks cur =
    phLoop (ls.filter (fun l => !(strStartsWith l (str "---") || strStartsWith l (str "+++"))))
      hunks cur := by
  induction ls with
  | nil => intro hunks cur; rfl
  | cons l rest ih =>
    intro hunks cur
    by_cases hh : (strStartsWith l (str "---") || strStartsWith l (str "+++")) = true
    · have hkeep : (!(strStartsWith l (str "---") || strStartsWith l (str "+++"))) = false := by
        rw [hh]; rfl
      rw [show phLoop (l :: rest) hunks cur = phLoop rest hunks cur by
        simp only [phLoop, hh, if_true]]
      rw [show (l :: rest).filter
          (fun l => !(strStartsWith l (str "---") || strStartsWith l (str "+++"))) =
          rest.filter (fun l => !(strStartsWith l (str "---") || strStartsWith l (str "+++"))) by
        simp only [List.filter_cons, hkeep]; rfl]
      exact ih hunks cur
    · have hh' : (strStartsWith l (str "---") || strStartsWith l (str "+++")) = false :=
        Bool.eq_false_iff.mpr hh
      have hkeep : (!(strStartsWith l (str "---") || strStartsWith l (str "+++"))) = true := by
        rw [hh']; rfl
      rw [show (l :: rest).filter
          (fun l => !(strStartsWith l (str "---") || strStartsWith l (str "+++"))) =
          l :: rest.filter (fun l => !(strStartsWith l (str "---") || strStartsWith l (str "+++"))) by
        simp only [List.filter_cons, hkeep]; rfl]
      by_cases hat : strStartsWith l (str "@@") = true
      · rw [show phLoop (l :: rest) hunks cur =
            phLoop rest (hunks ++ (match cur with | some h => [h] | none => []))
              (some ⟨l, [], (parseHunkHeaderNums l).1, (parseHunkHeaderNums l).2⟩) by
          simp only [phLoop, hh', hat]; rfl]
        rw [show phLoop (l :: rest.filter
              (fun l => !(strStartsWith l (str "---") || strStartsWith l (str "+++")))) hunks cur =
            phLoop (rest.filter
              (fun l => !(strStartsWith l (str "---") || strStartsWith l (str "+++"))))
              (hunks ++ (match cur with | some h => [h] | none => []))
              (some ⟨l, [], (parseHunkHeaderNums l).1, (parseHunkHeaderNums l).2⟩) by
          simp only [phLoop, hh', hat]; rfl]
        exact ih _ _
      · have hat' : strStartsWith l (str "@@") = false := Bool.eq_false_iff.mpr hat
        cases cur with
        | none =>
          rw [show phLoop (l :: rest) hunks none = phLoop rest hunks none by
            simp only [phLoop, hh', hat']; rfl]
          rw [show phLoop (l :: rest.filter
                (fun l => !(strStartsWith l (str "---") || strStartsWith l (str "+++")))) hunks none =
              phLoop (rest.filter
                (fun l => !(strStartsWith l (str "---") || strStartsWith l (str "+++")))) hunks none by
            simp only [phLoop, hh', hat']; rfl]
          exact ih _ _
        | some h =>
          rw [show phLoop (l :: rest) hunks (some h) =
              phLoop rest hunks (some { h with lines := h.lines ++ [classifyDiffLine l] }) by
            simp only [phLoop, hh', hat']; rfl]
          rw [show phLoop (l :: rest.filter
                (fun l => !(strStartsWith l (str "---") || strStartsWith l (str "+++")))) hunks (some h) =
              phLoop (rest.filter
                (fun l => !(strStartsWith l (str "---") || strStartsWith l (str "+++"))))
                hunks (some { h with lines := h.lines ++ [classifyDiffLine l] }) by
            simp only [phLoop, hh', hat']; rfl]
          exact ih _ _

theorem phLoop_open (ls : List Str)
    (hls : ∀ x ∈ ls, (strStartsWith x (str "---") || strStartsWith x (str "+++")) = false) :
    ∀ hunks h, phLoop ls hunks (some h) = hunks ++ specHunksCont h ls := by
  induction ls with
  | nil =>
    intro hunks h
    simp [phLoop, specHunksCont, specHunks]
  | cons l rest ih =>
    intro hunks h
    have hl := hls l (by simp)
    have hrest : ∀ x ∈ rest, (strStartsWith x (str "---") || strStartsWith x (str "+++")) = false :=
      fun x hx => hls x (by simp [hx])
    by_cases hat : strStartsWith l (str "@@") = true
    · rw [show phLoop (l :: rest) hunks (some h) =
          phLoop rest (hunks ++ [h])
            (some ⟨l, [], (parseHunkHeaderNums l).1, (parseHunkHeaderNums l).2⟩) by
        simp only [phLoop, hl, hat]; rfl]
      rw [ih hrest _ _]
      have htw : (l :: rest).takeWhile (fun x => !strStartsWith x (str "@@")) = [] := by
        simp [List.takeWhile_cons, hat]
      have hdw : (l :: rest).dropWhile (fun x => !strStartsWith x (str "@@")) = l :: rest := by
        simp [List.dropWhile_cons, hat]
      have hsh : specHunks (l :: rest) =
          ⟨l, (rest.takeWhile (fun x => !strStartsWith x (str "@@"))).map specClassify,
            (parseHunkHeaderNums l).1, (parseHunkHeaderNums l).2⟩
            :: specHunks (rest.dropWhile (fun x => !strStartsWith x (str "@@"))) := by
        rw [specHunks]
        simp [hat]
      simp only [specHunksCont, htw, hdw, List.map_nil, List.append_nil, hsh]
      simp [List.append_assoc]
    · have hat' : strStartsWith l (str "@@") = false := Bool.eq_false_iff.mpr hat
      rw [show phLoop (l :: rest) hunks (some h) =
          phLoop rest hunks (some { h with lines := h.lines ++ [classifyDiffLine l] }) by
        simp only [phLoop, hl, hat']; rfl]
      rw [ih hrest _ _]
      have htw : (l :: rest).takeWhile (fun x => !strStartsWith x (str "@@")) =
          l :: rest.takeWhile (fun x => !strStartsWith x (str "@@")) := by
        simp [List.takeWhile_cons, hat']
      have hdw : (l :: rest).dropWhile (fun x => !strStartsWith x (str "@@")) =
          rest.dropWhile (fun x => !strStartsWith x (str "@@")) := by
        simp [List.dropWhile_cons, hat']
      simp only [specHunksCont, htw, hdw, List.map_cons]
      rw [classifyDiffLine_eq_spec]
      simp [List.append_assoc]

theorem phLoop_closed (ls : List Str)
    (hls : ∀ x ∈ ls, (strStartsWith x (str "---") || strStartsWith x (str "+++")) = false) :
    ∀ hunks, phLoop ls hunks none = hunks ++ specHunks ls := by
  induction ls with
  | nil => intro hunks; simp [phLoop, specHunks]
  | cons l rest ih =>
    intro hunks
    have hl := hls l (by simp)
    have hrest : ∀ x ∈ rest, (strStartsWith x (str "---") || strStartsWith x (str "+++")) = false :=
      fun x hx => hls x (by simp [hx])
    by_cases hat : strStartsWith l (str "@@") = true
    · rw [show phLoop (l :: rest) hunks none =
          phLoop rest (hunks ++ [])
            (some ⟨l, [], (parseHunkHeaderNums l).1, (parseHunkHeaderNums l).2⟩) by
        simp only [phLoop, hl, hat]; rfl]
      rw [phLoop_open rest hrest _ _]
      have hsh : specHunks (l :: rest) =
          ⟨l, (rest.takeWhile (fun x => !strStartsWith x (str "@@"))).map specClassify,
            (parseHunkHeaderNums l).1, (parseHunkHeaderNums l).2⟩
            :: specHunks (rest.dropWhile (fun x => !strStartsWith x (str "@@"))) := by
        rw [specHunks]
        simp [hat]
      rw [hsh]
      simp [specHunksCont]
    · have hat' : strStartsWith l (str "@@") = false := Bool.eq_false_iff.mpr hat
      rw [show phLoop (l :: rest) hunks none = phLoop rest hunks none by
        simp only [phLoop, hl, hat']; rfl]
      rw [ih hrest]
      rw [show specHunks (l :: rest) = specHunks rest by rw [specHunks]; simp [hat']]

theorem ParseHunks_eq_parseHunksSpec (content : Str) :
    ParseHunks content = parseHunksSpec content := by
  unfold ParseHunks parseHunksSpec
  rw [phLoop_filter]
  have hfil : ∀ x ∈ (splitOnNl content).filter
      (fun l => !(strStartsWith l (str "---") || strStartsWith l (str "+++"))),
      (strStartsWith x (str "---") || strStartsWith x (str "+++")) = false := by
    intro x hx
    have h2 := (List.mem_filter.mp hx).2
    cases hb : (strStartsWith x (str "---") || strStartsWith x (str "+++")) with
    | false => rfl
    | true => rw [hb] at h2; exact absurd h2 (by decide)
  rw [phLoop_closed _ hfil]
  simp

theorem phLoop_length (ls : List Str) : ∀ (hunks : List DiffHunk) (cur : Option DiffHunk),
    (phLoop ls hunks cur).length =
    hunks.length + (match cur with | some _ => 1 | none => 0) +
      ls.countP (fun l => strStartsWith l (str "@@")) := by
  induction ls with
  | nil => intro hunks cur; cases cur <;> simp [phLoop]
  | cons l rest ih =>
    intro hunks cur
    by_cases hh : (strStartsWith l (str "---") || strStartsWith l (str "+++")) = true
    · have hat : strStartsWith l (str "@@") = false := fileHdr_not_hunkStart l hh
      rw [show phLoop (l :: rest) hunks cur = phLoop rest hunks cur by
        simp only [phLoop, hh, if_true]]
      rw [ih hunks cur]
      simp [List.countP_cons, hat]
    · have hh' : (strStartsWith l (str "---") || strStartsWith l (str "+++")) = false :=
        Bool.eq_false_iff.mpr hh
      by_cases hat : strStartsWith l (str "@@") = true
      · rw [show phLoop (l :: rest) hunks cur =
            phLoop rest (hunks ++ (match cur with | some h => [h] | none => []))
              (some ⟨l, [], (parseHunkHeaderNums l).1, (parseHunkHeaderNums l).2⟩) by
          simp only [phLoop, hh', hat]; rfl]
        rw [ih _ _]
        cases cur <;> simp [List.countP_cons, hat] <;> omega
      · have hat' : strStartsWith l (str "@@") = false := Bool.eq_false_iff.mpr hat
        cases cur with
        | none =>
          rw [show phLoop (l :: rest) hunks none = phLoop rest hunks none by
            simp only [phLoop, hh', hat']; rfl]
          rw [ih _ _]
          simp [List.countP_cons, hat']
        | some h =>
          rw [show phLoop (l :: rest) hunks (some h) =
              phLoop rest hunks (some { h with lines := h.lines ++ [classifyDiffLine l] }) by
            simp only [phLoop, hh', hat']; rfl]
          rw [ih _ _]
          simp [List.countP_cons, hat']

theorem ParseHunks_length (content : Str) :
    (ParseHunks content).length = (splitOnNl content).countP (fun l => strStartsWith l (str "@@")) := by
  unfold ParseHunks
  rw [phLoop_length]
  simp

theorem isDiff_hunks_pos (content : Str) (h : isDiff content = true) :
    0 < (ParseHunks content).length := by
  rw [ParseHunks_length]
  rw [List.countP_pos_iff]
  unfold isDiff at h
  simp only [Bool.and_eq_true, List.any_eq_true] at h
  obtain ⟨⟨⟨l, hl, hpred⟩, _⟩, _⟩ := h
  exact ⟨l, hl, hpred.1⟩

theorem strContains_of_startsWith (s sub : Str) (h : strStartsWith s sub = true) :
    strContains s sub = true := by
  cases s with
  | nil =>
    cases sub with
    | nil => rfl
    | cons p ps => exact absurd h (by simp [strStartsWith])
  | cons c t =>
    rw [strContains, h]
    rfl

theorem isDiff_iff (content : Str) : isDiff content = true ↔
    ((∃ l ∈ splitOnNl content, strStartsWith l (str "@@") = true) ∧
     (∃ l ∈ splitOnNl content,
       (strStartsWith l (str "--- ") || strStartsWith l (str "+++ ")) = true) ∧
     (∃ l ∈ splitOnNl content,
       ((strStartsWith l (str "+") && !strStartsWith l (str "+++")) ||
        (strStartsWith l (str "-") && !strStartsWith l (str "---"))) = true)) := by
  unfold isDiff
  simp only [Bool.and_eq_true, Bool.or_eq_true, List.any_eq_true, decide_eq_true_eq]
  constructor
  · rintro ⟨⟨⟨l, hl, hp⟩, hfile⟩, hcnt⟩
    refine ⟨⟨l, hl, hp.1⟩, hfile, ?_⟩
    rcases hcnt with h | h
    · obtain ⟨l2, hl2, hp2⟩ := List.countP_pos_iff.mp h
      simp only [Bool.and_eq_true] at hp2
      exact ⟨l2, hl2, Or.inl hp2⟩
    · obtain ⟨l2, hl2, hp2⟩ := List.countP_pos_iff.mp h
      simp only [Bool.and_eq_true] at hp2
      exact ⟨l2, hl2, Or.inr hp2⟩
  · rintro ⟨⟨l, hl, hat⟩, hfile, ⟨l3, hl3, hor⟩⟩
    refine ⟨⟨⟨l, hl, ⟨hat, strContains_of_startsWith _ _ hat⟩⟩, hfile⟩, ?_⟩
    rcases hor with ha | hd
    · refine Or.inl (List.countP_pos_iff.mpr ⟨l3, hl3, ?_⟩)
      simp only [Bool.and_eq_true]
      exact ha
    · refine Or.inr (List.countP_pos_iff.mpr ⟨l3, hl3, ?_⟩)
      simp only [Bool.and_eq_true]
      exact hd

theorem detect_eq_diff_iff (content : Str) :
    DetectBlockContentType content = .diff ↔ isDiff content = true := by
  unfold DetectBlockContentType
  by_cases h : isDiff content = true
  · simp [h]
  · have h' : isDiff content = false := Bool.eq_false_iff.mpr h
    simp only [h', Bool.false_eq_true, if_false]
    constructor
    · intro hcontra
      exfalso
      revert hcontra
      split_ifs <;> decide
    · intro hcontra
      exact hcontra.elim

/-- C10: DetectBlockContentType is a total function trying diff, table,
tree, JSON, YAML in that order with first match winning and Plain as the
default; it returns Diff exactly when some line starts a hunk header, some
line is a file header, and some line is a net addition or deletion; and
the empty string classifies as Plain. -/
theorem c10_classifier :
    (∀ content : Str, DetectBlockContentType content = .diff ↔
      ((∃ l ∈ splitOnNl content, strStartsWith l (str "@@") = true) ∧
       (∃ l ∈ splitOnNl content,
         (strStartsWith l (str "--- ") || strStartsWith l (str "+++ ")) = true) ∧
       (∃ l ∈ splitOnNl content,
         ((strStartsWith l (str "+") && !strStartsWith l (str "+++")) ||
          (strStartsWith l (str "-") && !strStartsWith l (str "---"))) = true))) ∧
    (∀ content : Str, isDiff content = false → isTable content = true →
      DetectBlockContentType content = .table) ∧
    (∀ content : Str, isDiff content = false → isTable content = false →
      isTree content = true → DetectBlockContentType content = .tree) ∧
    (∀ content : Str, isDiff content = false → isTable content = false →
      isTree content = false → isJSON content = true →
      DetectBlockContentType content = .json) ∧
    (∀ content : Str, isDiff content = false → isTable content = false →
      isTree content = false → isJSON content = false → isYAML content = true →
      DetectBlockContentType content = .yaml) ∧
    (∀ content : Str, isDiff content = false → isTable content = false →
      isTree content = false → isJSON content = false → isYAML content = false →
      DetectBlockContentType content = .plain) ∧
    DetectBlockContentType (str "") = .plain := by
  refine ⟨?_, ?_, ?_, ?_, ?_, ?_, by decide⟩
  · intro content
    rw [detect_eq_diff_iff]
    exact isDiff_iff content
  · intro content h1 h2
    unfold DetectBlockContentType
    simp [h1, h2]
  · intro content h1 h2 h3
    unfold DetectBlockContentType
    simp [h1, h2, h3]
  · intro content h1 h2 h3 h4
    unfold DetectBlockContentType
    simp [h1, h2, h3, h4]
  · intro content h1 h2 h3 h4 h5
    unfold DetectBlockContentType
    simp [h1, h2, h3, h4, h5]
  · intro content h1 h2 h3 h4 h5
    unfold DetectBlockContentType
    simp [h1, h2, h3, h4, h5]

/-- Closed instances of c10_classifier: a concrete markdown table
classifies as Table through the priority chain, and the diff rule holds at
a concrete unified diff. -/
theorem c10_classifier_witness :
    DetectBlockContentType (str "| a |\n|---|\n| b |") = .table ∧
    DetectBlockContentType (str "--- a/f\n+++ b/f\n@@ -1,2 +1,2 @@\n-x\n+y") = .diff := by
  constructor
  · exact c10_classifier.2.1 (str "| a |\n|---|\n| b |") (by decide) (by decide)
  · exact (c10_classifier.1 (str "--- a/f\n+++ b/f\n@@ -1,2 +1,2 @@\n-x\n+y")).mpr
      (by refine ⟨⟨str "@@ -1,2 +1,2 @@", by decide, by decide⟩,
        ⟨str "--- a/f", by decide, by decide⟩, ⟨str "-x", by decide, by decide⟩⟩)

/-- C8: ParseHunks is total and equals its specification-level
restatement: skipped file headers, one hunk cut per hunk header line in
input order with body lines classified by first character and the final
hunk flushed at end of input; on text with no hunk header line it returns
the empty list rather than an error, and in general it returns exactly one
hunk per hunk header line. -/
theorem c8_parse_hunks :
    (∀ content : Str, ParseHunks content = parseHunksSpec content) ∧
    (∀ content : Str,
      (∀ l ∈ splitOnNl content, strStartsWith l (str "@@") = false) →
      ParseHunks content = []) ∧
    (∀ content : Str, (ParseHunks content).length =
      (splitOnNl content).countP (fun l => strStartsWith l (str "@@"))) := by
  refine ⟨ParseHunks_eq_parseHunksSpec, ?_, ParseHunks_length⟩
  intro content h
  have hlen : (ParseHunks content).length = 0 := by
    rw [ParseHunks_length]
    rw [List.countP_eq_zero]
    intro a ha
    rw [h a ha]
    exact Bool.false_ne_true
  exact List.length_eq_zero.mp hlen

/-- Closed instance of c8_parse_hunks: plain text with no hunk header
parses to the empty hunk list. -/
theorem c8_parse_hunks_witness : ParseHunks (str "hello\nworld") = [] :=
  c8_parse_hunks.2.1 (str "hello\nworld") (by decide)

/-- C3: DiffParser.Parse always returns exactly one Block; on
diff-classified content that Block has one page per parsed hunk with every
per-page type Diff and at least one hunk exists, and on content the
classifier rejects it is the single plain-text fallback Block. -/
theorem c3_diff_parse_total (content : Str) :
    (diffParserParse content).length = 1 ∧
    (∀ b ∈ diffParserParse content,
      (DetectBlockContentType content = .diff →
        0 < (ParseHunks content).length ∧
        b.totalPages = (ParseHunks content).length ∧
        b.pageTypes = List.replicate (ParseHunks content).length .diff ∧
        b.contentType = .diff) ∧
      (DetectBlockContentType content ≠ .diff →
        b.contentType = .plain ∧ b.totalPages = 1 ∧ b.pages = [content])) := by
  unfold diffParserParse
  by_cases h : DetectBlockContentType content ≠ .diff
  · simp only [if_pos h]
    refine ⟨rfl, ?_⟩
    intro b hb
    simp only [List.mem_singleton] at hb
    subst hb
    exact ⟨fun hd => absurd hd h, fun _ => ⟨rfl, rfl, rfl⟩⟩
  · have hd : DetectBlockContentType content = .diff := not_not.mp h
    have hdiff : isDiff content = true := (detect_eq_diff_iff content).mp hd
    have hpos := isDiff_hunks_pos content hdiff
    have hne : (ParseHunks content).isEmpty = false := by
      cases hp : ParseHunks content with
      | nil => rw [hp] at hpos; simp at hpos
      | cons a as => rfl
    simp only [if_neg h, hne, Bool.false_eq_true, if_false]
    refine ⟨rfl, ?_⟩
    intro b hb
    simp only [List.mem_singleton] at hb
    subst hb
    constructor
    · intro _
      exact ⟨hpos, rfl, rfl, rfl⟩
    · intro hcontra
      exact absurd hd hcontra

/-- Closed instance of c3_diff_parse_total at a concrete two-line diff
with one hunk. -/
theorem c3_diff_parse_total_witness :
    (diffParserParse (str "--- a/f\n+++ b/f\n@@ -1,2 +1,2 @@\n-x\n+y")).length = 1 ∧
    ((diffParserParse (str "--- a/f\n+++ b/f\n@@ -1,2 +1,2 @@\n-x\n+y")).headD
      { name := [], content := [], lineNum := 0, fullText := [], pages := [],
        totalPages := 0, contentType := .plain, pageTypes := [], pageMeta := [],
        sourceType := .other }).totalPages =
      (ParseHunks (str "--- a/f\n+++ b/f\n@@ -1,2 +1,2 @@\n-x\n+y")).length := by
  refine ⟨(c3_diff_parse_total (str "--- a/f\n+++ b/f\n@@ -1,2 +1,2 @@\n-x\n+y")).1, ?_⟩
  have h := (c3_diff_parse_total (str "--- a/f\n+++ b/f\n@@ -1,2 +1,2 @@\n-x\n+y")).2
    ((diffParserParse (str "--- a/f\n+++ b/f\n@@ -1,2 +1,2 @@\n-x\n+y")).headD
      { name := [], content := [], lineNum := 0, fullText := [], pages := [],
        totalPages := 0, contentType := .plain, pageTypes := [], pageMeta := [],
        sourceType := .other })
    (by decide)
  exact (h.1 (by decide)).2.1

theorem nameIndexOf_append (blocks : List Block) (b : Block) (k : Str) :
    nameIndexOf (blocks ++ [b]) k =
    if k = toLowerStr b.name then some blocks.length else nameIndexOf blocks k := by
  unfold nameIndexOf
  rw [List.enum_append, List.foldl_append]
  rfl

theorem lastIdxWith_append (blocks : List Block) (b : Block) (k : Str) :
    lastIdxWith (blocks ++ [b]) k =
    if k = toLowerStr b.name then some blocks.length else lastIdxWith blocks k := by
  unfold lastIdxWith
  rw [List.enum_append, List.filter_append, List.map_append]
  have henum : List.enumFrom blocks.length [b] = [(blocks.length, b)] := rfl
  rw [henum]
  by_cases h : k = toLowerStr b.name
  · have hf : List.filter (fun p => toLowerStr p.2.name == k) [(blocks.length, b)] =
        [(blocks.length, b)] := by
      simp [List.filter_cons, h]
    rw [hf, if_pos h]
    simp
  · have hf : List.filter (fun p => toLowerStr p.2.name == k) [(blocks.length, b)] = [] := by
      simp only [List.filter_cons, List.filter_nil]
      have : (toLowerStr b.name == k) = false := by
        cases hbe : toLowerStr b.name == k with
        | false => rfl
        | true => exact absurd (eq_of_beq hbe).symm h
      rw [this]
      rfl
    rw [hf, if_neg h]
    simp

/-- Shared fact behind the index claims: the name map built by
NewBlockIndex resolves a key to the LAST block whose lowercased name
equals it. -/
theorem nameIndexOf_eq_lastIdxWith (blocks : List Block) :
    ∀ k, nameIndexOf blocks k = lastIdxWith blocks k := by
  induction blocks using List.reverseRecOn with
  | nil => intro k; rfl
  | append_singleton bs b ih =>
    intro k
    rw [nameIndexOf_append, lastIdxWith_append]
    by_cases h : k = toLowerStr b.name
    · simp [h]
    · simp [h, ih k]

/-- C1 counterexample: with two blocks whose names are case-insensitively
equal, the construction-time name map resolves to the LATER block, not the
first occurrence the claim states: looking up the key gives index 1, and
index 1 differs from the claimed first-occurrence index 0. -/
theorem c1_counterexample :
    nameIndexOf
      [{ name := str "A", content := [], lineNum := 0, fullText := [], pages := [[]],
         totalPages := 1, contentType := .plain, pageTypes := [], pageMeta := [],
         sourceType := .other },
       { name := str "a", content := [], lineNum := 0, fullText := [], pages := [[]],
         totalPages := 1, contentType := .plain, pageTypes := [], pageMeta := [],
         sourceType := .other }] (str "a") = some 1 ∧ (some 1 : Option Nat) ≠ some 0 := by
  exact ⟨by decide, by decide⟩

/-- C1 amended: the name-to-index map built at BlockIndex construction
maps each lowercased block name to the position of that name's LAST
occurrence in the sequence; when two blocks share a case-insensitively
equal name, the later block overwrites the earlier entry, so name lookups
resolve to the later block. -/
theorem c1_amended (blocks : List Block) (k : Str) :
    nameIndexOf blocks k = lastIdxWith blocks k :=
  nameIndexOf_eq_lastIdxWith blocks k

theorem ansiMatchRest_lt (s r : Str) (h : ansiMatchRest s = some r) :
    r.length < s.length := by
  cases s with
  | nil => simp [ansiMatchRest] at h
  | cons c rest =>
    cases rest with
    | nil => simp [ansiMatchRest] at h
    | cons d r2 =>
      simp only [ansiMatchRest] at h
      split at h
      · split at h
        · rename_i l r3 hdrop
          split at h
          · have hlen : (r2.drop
                ((r2.takeWhile (fun ch => ch.isDigit || ch == ';')).length)).length ≤
                r2.length := by
              rw [List.length_drop]
              omega
            rw [hdrop] at hlen
            simp only [List.length_cons] at hlen ⊢
            injection h with h
            subst h
            omega
          · exact absurd h (by simp)
        · exact absurd h (by simp)
      · exact absurd h (by simp)

theorem joinNl_splitOnNl (s : Str) : joinNl (splitOnNl s) = s := by
  induction s with
  | nil => rfl
  | cons c rest ih =>
    show joinNl (splitOnChar '\n' (c :: rest)) = c :: rest
    by_cases h : c = '\n'
    · subst h
      have hsp : splitOnChar '\n' ('\n' :: rest) = [] :: splitOnChar '\n' rest := by
        simp [splitOnChar]
      rw [hsp]
      cases hl : splitOnChar '\n' rest with
      | nil => exact absurd hl (splitOnChar_ne_nil _ _)
      | cons x xs =>
        have hj : joinNl ([] :: x :: xs) = '\n' :: joinNl (x :: xs) := by
          simp [joinNl, joinSep]
        rw [hj]
        have ih2 : joinNl (x :: xs) = rest := by rw [← hl]; exact ih
        rw [ih2]
    · have hsp : splitOnChar '\n' (c :: rest) =
          match splitOnChar '\n' rest with
          | [] => [[c]]
          | h :: t => (c :: h) :: t := by
        simp [splitOnChar, h]
      cases hl : splitOnChar '\n' rest with
      | nil => exact absurd hl (splitOnChar_ne_nil _ _)
      | cons x xs =>
        rw [hsp, hl]
        have hcons : joinNl ((c :: x) :: xs) = c :: joinNl (x :: xs) := by
          cases xs with
          | nil => rfl
          | cons y ys => simp [joinNl, joinSep]
        rw [hcons]
        have ih2 : joinNl (x :: xs) = rest := by rw [← hl]; exact ih
        rw [ih2]

theorem mkTxtBlock_pages (n : Str) (bn : Nat) (lines : List Str) :
    joinNl (mkTxtBlock n bn lines).pages = (mkTxtBlock n bn lines).content := by
  show joinNl (splitIntoPages lines LinesPerPage) = joinNl lines
  exact joinNl_splitIntoPages lines 49

theorem txtFlush_pages (cb : Option (Str × Nat)) (cur : List Str) :
    ∀ b ∈ txtFlush cb cur, joinNl b.pages = b.content := by
  intro b hb
  unfold txtFlush at hb
  split at hb
  · simp only [List.mem_singleton] at hb
    subst hb
    apply mkTxtBlock_pages
  · simp at hb

theorem txtLoopF_pages : ∀ (fuel : Nat) (ls : List Str) cb cur bn acc,
    (∀ b ∈ acc, joinNl b.pages = b.content) →
    ∀ b ∈ txtLoopF fuel ls cb cur bn acc, joinNl b.pages = b.content := by
  intro fuel
  induction fuel with
  | zero => intro ls cb cur bn acc hacc b hb; exact hacc b hb
  | succ k ih =>
    intro ls cb cur bn acc hacc b hb
    have hflush : ∀ (cb2 : Option (Str × Nat)) (cur2 : List Str),
        ∀ b2 ∈ acc ++ txtFlush cb2 cur2, joinNl b2.pages = b2.content := by
      intro cb2 cur2 b2 hb2
      rcases List.mem_append.mp hb2 with h | h
      · exact hacc b2 h
      · exact txtFlush_pages cb2 cur2 b2 h
    cases ls with
    | nil =>
      simp only [txtLoopF] at hb
      exact hflush cb cur b hb
    | cons line rest =>
      simp only [txtLoopF] at hb
      by_cases hsh : trimSpace line = str "shell"
      · rw [if_pos hsh] at hb
        cases rest with
        | nil => exact ih [] _ _ _ _ (hflush cb cur) b hb
        | cons next rest2 => exact ih rest2 _ _ _ _ (hflush cb cur) b hb
      · rw [if_neg hsh] at hb
        by_cases hdol : strStartsWith line (str "$ ") = true
        · rw [if_pos hdol] at hb
          exact ih rest _ _ _ _ (hflush cb cur) b hb
        · rw [if_neg hdol] at hb
          cases cb with
          | some p => exact ih rest _ _ _ _ hacc b hb
          | none =>
            by_cases hbl : (!(trimSpace line).isEmpty) = true
            · rw [if_pos hbl] at hb
              exact ih rest _ _ _ _ hacc b hb
            · rw [if_neg hbl] at hb
              exact ih rest _ _ _ _ hacc b hb

theorem splitIntoPages_join_pos (lines : List Str) (n : Nat) (hn : 0 < n) :
    joinNl (splitIntoPages lines n) = joinNl lines := by
  cases n with
  | zero => omega
  | succ m => exact joinNl_splitIntoPages lines m

theorem createBlock_pages (header : Str) (cl : List Str) (ln : Nat)
    (h : (createBlock header cl ln).contentType ≠ .diff) :
    joinNl (createBlock header cl ln).pages = (createBlock header cl ln).content := by
  unfold createBlock at *
  simp only at h ⊢
  by_cases hd : DetectBlockContentType (joinNl (trimTrailingEmpty cl)) = .diff
  · exact absurd hd h
  · simp only [if_neg hd]
    exact splitIntoPages_join_pos (trimTrailingEmpty cl) LinesPerPage (by decide)

theorem mkSingleBlock_pages (n : Nat) (cl : List Str) :
    joinNl (mkSingleBlock n cl).pages = (mkSingleBlock n cl).content := by
  show joinNl (splitIntoPages cl LinesPerPage) = joinNl cl
  exact splitIntoPages_join_pos cl LinesPerPage (by decide)

theorem createDiffBlock_contentType (msg : JMap) (dn ln : Nat) (b : Block)
    (h : createDiffBlock msg dn ln = some b) : b.contentType = .diff := by
  unfold createDiffBlock at h
  by_cases he : (extractStructuredPatch msg).isEmpty = true
  · rw [if_pos he] at h
    exact absurd h (by simp)
  · rw [if_neg he] at h
    simp only [Option.some.injEq] at h
    subst h
    rfl

/-- C6 counterexample: for content ending in a newline, the single Block
of MarkdownParser.ParseContinuous stores the original content but its
pages join back without the trailing blank line, so joining the pages does
not reconstruct the content. -/
theorem c6_counterexample :
    (parseContinuous (str "a\n") 20).map (fun b => joinNl b.pages) ≠
    (parseContinuous (str "a\n") 20).map (fun b => b.content) := by decide

/-- C6 amended: joining a Block's pages with newlines reconstructs its
content for every line-paginated Block: markdown heading blocks whose
content does not classify as diff, every TxtParser block, every JSONL turn
block, every non-diff ParseSingleLine block, and every non-diff DiffParser
fallback block. For the single Block of MarkdownParser.ParseContinuous the
joined pages instead reconstruct the content with trailing blank lines
removed, while the Block stores the original content, so the two agree
exactly when the content has no trailing blank line. -/
theorem c6_amended :
    (∀ (header : Str) (cl : List Str) (ln : Nat),
      (createBlock header cl ln).contentType ≠ .diff →
      joinNl (createBlock header cl ln).pages = (createBlock header cl ln).content) ∧
    (∀ (content : Str) (termHeight : Nat),
      (parseContinuous content termHeight).map (fun b => joinNl b.pages) =
        [joinNl (trimTrailingEmpty (splitOnNl content))] ∧
      (parseContinuous content termHeight).map (fun b => b.content) =
        [if (trimTrailingEmpty (splitOnNl content)).isEmpty then [] else content]) ∧
    (∀ (content : Str), ∀ b ∈ txtParse content, joinNl b.pages = b.content) ∧
    (∀ (fmtA : Str → Str) (turn : ConversationTurn) (n : Nat),
      joinNl (CreateTurnBlock fmtA turn n).pages = (CreateTurnBlock fmtA turn n).content) ∧
    (∀ (f : Filters) (item : Option JMap) (n : Nat) (b : Block),
      parseSingleLine f item n = some b → b.contentType ≠ .diff →
      joinNl b.pages = b.content) ∧
    (∀ (content : Str), ∀ b ∈ diffParserParse content, b.contentType ≠ .diff →
      joinNl b.pages = b.content) := by
  refine ⟨createBlock_pages, ?_, ?_, ?_, ?_, ?_⟩
  · intro content termHeight
    unfold parseContinuous
    by_cases he : (trimTrailingEmpty (splitOnNl content)).isEmpty = true
    · have hnil : trimTrailingEmpty (splitOnNl content) = [] := by
        cases h2 : trimTrailingEmpty (splitOnNl content) with
        | nil => rfl
        | cons x xs => rw [h2] at he; simp at he
      simp [he, hnil, joinNl, joinSep]
    · have hlpp : 0 < (if (if termHeight - 4 < 10 then 10 else termHeight - 4) > 50 then 50
          else if termHeight - 4 < 10 then 10 else termHeight - 4) := by
        split_ifs <;> omega
      simp only [he, Bool.false_eq_true, if_false, List.map_cons, List.map_nil]
      exact ⟨by rw [splitIntoPages_join_pos _ _ hlpp], by trivial⟩
  · intro content b hb
    unfold txtParse at hb
    by_cases hc : ((txtLoop (splitOnNl content) none [] 0 []).isEmpty &&
        !(trimSpace content).isEmpty) = true
    · simp only [hc, if_true, List.mem_singleton] at hb
      subst hb
      show joinNl (splitIntoPages (splitOnNl content) LinesPerPage) = content
      rw [splitIntoPages_join_pos _ _ (by decide)]
      exact joinNl_splitOnNl content
    · simp only [hc, Bool.false_eq_true, if_false] at hb
      exact txtLoopF_pages _ _ _ _ _ _ (by intro b2 hb2; simp at hb2) b hb
  · intro fmtA turn n
    rfl
  · intro f item n b hps hct
    cases item with
    | none => exact absurd hps (by simp [parseSingleLine])
    | some msg =>
      simp only [parseSingleLine] at hps
      split at hps
      · exact absurd hps (by simp)
      · rename_i msgType hty
        by_cases hu : msgType = str "user"
        · rw [if_pos hu] at hps
          by_cases htr : isToolResultMessage msg = true
          · rw [if_pos htr] at hps
            split at hps
            · exact absurd (createDiffBlock_contentType msg n 0 b hps) hct
            · exact absurd hps (by simp)
          · rw [if_neg htr] at hps
            split at hps
            · exact absurd hps (by simp)
            · split at hps
              · exact absurd hps (by simp)
              · simp only [Option.some.injEq] at hps
                subst hps
                apply mkSingleBlock_pages
        · rw [if_neg hu] at hps
          by_cases ha : msgType = str "assistant"
          · rw [if_pos ha] at hps
            split at hps
            · exact absurd hps (by simp)
            · split at hps
              · exact absurd hps (by simp)
              · split at hps
                · simp only [Option.some.injEq] at hps
                  subst hps
                  apply mkSingleBlock_pages
                · simp only [Option.some.injEq] at hps
                  subst hps
                  apply mkSingleBlock_pages
          · rw [if_neg ha] at hps
            exact absurd hps (by simp)
  · intro content b hb hct
    unfold diffParserParse at hb
    split at hb
    · simp only [List.mem_singleton] at hb
      subst hb
      rfl
    · by_cases hh : (ParseHunks content).isEmpty = true
      · simp only [hh, if_true, List.mem_singleton] at hb
        subst hb
        exact absurd rfl hct
      · simp only [hh, Bool.false_eq_true, if_false, List.mem_singleton] at hb
        subst hb
        exact absurd rfl hct

/-- Closed instance of c6_amended: a concrete markdown heading block with
plain content joins its pages back to its content. -/
theorem c6_amended_witness :
    joinNl (createBlock (str "T") [str "x", str "y"] 0).pages =
    (createBlock (str "T") [str "x", str "y"] 0).content :=
  c6_amended.1 (str "T") [str "x", str "y"] 0 (by decide)

theorem txtLoopF_open (fuel : Nat) : ∀ (ls : List Str) (n : Str) (bn bn2 : Nat)
    (acc : List Block) (cur : List Str), ls.length < fuel → cur ≠ [] →
    (∀ l ∈ ls, ¬(trimSpace l = str "shell") ∧ strStartsWith l (str "$ ") = false) →
    txtLoopF fuel ls (some (n, bn)) cur bn2 acc = acc ++ [mkTxtBlock n bn (cur ++ ls)] := by
  induction fuel with
  | zero => intro ls n bn bn2 acc cur hlen; omega
  | succ k ih =>
    intro ls n bn bn2 acc cur hlen hcur hmk
    cases ls with
    | nil =>
      simp only [txtLoopF, List.append_nil]
      cases cur with
      | nil => exact absurd rfl hcur
      | cons c cs => rfl
    | cons line rest =>
      have hl := hmk line (by simp)
      simp only [txtLoopF]
      rw [if_neg hl.1, if_neg (by rw [hl.2]; exact Bool.false_ne_true)]
      have hra : (cur ++ [line]) ++ rest = cur ++ line :: rest := by
        simp [List.append_assoc]
      rw [ih rest n bn bn2 acc (cur ++ [line]) (by simp only [List.length_cons] at hlen; omega)
        (by simp) (fun l hx => hmk l (by simp [hx])), hra]

theorem txtLoopF_closed (fuel : Nat) : ∀ (ls : List Str) (_bn bn2 : Nat) (acc : List Block),
    ls.length < fuel →
    (∀ l ∈ ls, ¬(trimSpace l = str "shell") ∧ strStartsWith l (str "$ ") = false) →
    txtLoopF fuel ls none [] bn2 acc =
      (match ls.dropWhile (fun l => (trimSpace l).isEmpty) with
       | [] => acc
       | l :: rest => acc ++ [mkTxtBlock (str "Output") (bn2 + 1) (l :: rest)]) := by
  induction fuel with
  | zero => intro ls bn bn2 acc hlen; omega
  | succ k ih =>
    intro ls bn bn2 acc hlen hmk
    cases ls with
    | nil => simp [txtLoopF, txtFlush]
    | cons line rest =>
      have hl := hmk line (by simp)
      simp only [txtLoopF]
      rw [if_neg hl.1, if_neg (by rw [hl.2]; exact Bool.false_ne_true)]
      by_cases hbl : (trimSpace line).isEmpty = true
      · rw [if_neg (by simp [hbl])]
        rw [ih rest bn bn2 acc (by simp only [List.length_cons] at hlen; omega)
          (fun l hx => hmk l (by simp [hx]))]
        rw [List.dropWhile_cons]
        simp [hbl]
      · have hbl2 : (trimSpace line).isEmpty = false := Bool.eq_false_iff.mpr hbl
        rw [if_pos (by simp [hbl2])]
        rw [txtLoopF_open k rest (str "Output") (bn2 + 1) (bn2 + 1) acc [line]
          (by simp only [List.length_cons] at hlen; omega) (by simp)
          (fun l hx => hmk l (by simp [hx]))]
        rw [List.dropWhile_cons]
        simp [hbl2]

/-- C4 counterexample: a non-empty but all-whitespace input makes
TxtParser.Parse return the empty block list, against the claim that every
non-empty input yields a non-empty result. -/
theorem c4_counterexample : txtParse (str " ") = [] ∧ str " " ≠ [] := by
  exact ⟨by decide, by decide⟩

/-- C4 amended: TxtParser.Parse never returns an empty result for
non-BLANK input, input with at least one non-whitespace character; an
all-whitespace non-empty input yields an empty result. In particular,
content with no standalone shell marker line and no dollar-space line but
at least one non-blank line yields exactly one Block, named Output. -/
theorem c4_amended :
    (∀ content : Str, (trimSpace content).isEmpty = false → txtParse content ≠ []) ∧
    (∀ content : Str,
      (∀ l ∈ splitOnNl content, ¬(trimSpace l = str "shell") ∧
        strStartsWith l (str "$ ") = false) →
      (∃ l ∈ splitOnNl content, (trimSpace l).isEmpty = false) →
      (txtParse content).length = 1 ∧
      ∀ b ∈ txtParse content, b.name = str "Output") := by
  constructor
  · intro content htrim
    unfold txtParse
    by_cases hb : (txtLoop (splitOnNl content) none [] 0 []).isEmpty = true
    · rw [if_pos (by rw [hb, htrim]; rfl)]
      simp
    · have hb2 : (txtLoop (splitOnNl content) none [] 0 []).isEmpty = false :=
        Bool.eq_false_iff.mpr hb
      rw [if_neg (by rw [hb2]; simp)]
      intro hcontra
      rw [hcontra] at hb2
      exact absurd hb2 (by decide)
  · intro content hmk hnb
    have hloop : txtLoop (splitOnNl content) none [] 0 [] =
        (match (splitOnNl content).dropWhile (fun l => (trimSpace l).isEmpty) with
         | [] => ([] : List Block)
         | l :: rest => [mkTxtBlock (str "Output") 1 (l :: rest)]) := by
      unfold txtLoop
      rw [txtLoopF_closed ((splitOnNl content).length + 1) (splitOnNl content) 0 0 []
        (by omega) hmk]
      cases (splitOnNl content).dropWhile (fun l => (trimSpace l).isEmpty) with
      | nil => rfl
      | cons l rest => rfl
    have hdw : ∃ l rest, (splitOnNl content).dropWhile (fun l => (trimSpace l).isEmpty) =
        l :: rest := by
      obtain ⟨l0, hl0, hl0f⟩ := hnb
      cases hcase : (splitOnNl content).dropWhile (fun l => (trimSpace l).isEmpty) with
      | nil =>
        exfalso
        have := List.dropWhile_eq_nil_iff.mp hcase l0 hl0
        rw [hl0f] at this
        exact absurd this (by decide)
      | cons l rest => exact ⟨l, rest, rfl⟩
    obtain ⟨l, rest, hdw⟩ := hdw
    rw [hdw] at hloop
    have hparse : txtParse content = [mkTxtBlock (str "Output") 1 (l :: rest)] := by
      unfold txtParse
      rw [hloop]
      rw [if_neg (by simp)]
    rw [hparse]
    exact ⟨rfl, by intro b hb; simp only [List.mem_singleton] at hb; subst hb; rfl⟩

/-- Closed instance of c4_amended at concrete marker-free content. -/
theorem c4_amended_witness :
    txtParse (str "hello\nworld") ≠ [] ∧
    (txtParse (str "hello\nworld")).length = 1 := by
  constructor
  · exact c4_amended.1 (str "hello\nworld") (by decide)
  · exact (c4_amended.2 (str "hello\nworld") (by decide)
      ⟨str "hello", by decide, by decide⟩).1

/-- C7 counterexample: a tool result whose structuredPatch list is
non-empty but holds no object hunks makes the streaming diff-block path
synthesize a header-only diff with zero parsed hunks, yet the Block it
returns has one page, so the page count differs from the parsed hunk
count the claim states. -/
theorem c7_counterexample :
    (createDiffBlock
        [(str "toolUseResult", JValue.jobj
          [(str "filePath", JValue.jstr (str "f")),
           (str "structuredPatch", JValue.jarr [JValue.jstr (str "x")])])] 0 0).map
      (fun b => (b.totalPages, (ParseHunks b.content).length)) = some (1, 0) ∧
    (1 : Nat) ≠ 0 := by
  exact ⟨by decide, by decide⟩

/-- C7 amended: for every hunk-per-page diff Block, every page stores the
entire diff text; the page count equals the parsed hunk count for the
DiffParser path and the heading-cut markdown path, while the JSONL
streaming diff-block path uses max 1 of the parsed hunk count, the
fallback single page occurring exactly when the synthesized diff parses
to zero hunks. -/
theorem c7_amended :
    (∀ content : Str, DetectBlockContentType content = .diff →
      ∀ b ∈ diffParserParse content,
        b.pages = List.replicate (ParseHunks content).length content ∧
        b.totalPages = (ParseHunks content).length) ∧
    (∀ (header : Str) (cl : List Str) (ln : Nat),
      (createBlock header cl ln).contentType = .diff →
      (createBlock header cl ln).pages =
        List.replicate (ParseHunks (createBlock header cl ln).content).length
          (createBlock header cl ln).content ∧
      (createBlock header cl ln).totalPages =
        (ParseHunks (createBlock header cl ln).content).length) ∧
    (∀ (msg : JMap) (dn ln : Nat) (b : Block), createDiffBlock msg dn ln = some b →
      b.pages = List.replicate (max 1 (ParseHunks b.content).length) b.content ∧
      b.totalPages = max 1 (ParseHunks b.content).length) := by
  refine ⟨?_, ?_, ?_⟩
  · intro content hd b hb
    have hdiff : isDiff content = true := (detect_eq_diff_iff content).mp hd
    have hpos := isDiff_hunks_pos content hdiff
    have hne : (ParseHunks content).isEmpty = false := by
      cases hp : ParseHunks content with
      | nil => rw [hp] at hpos; simp at hpos
      | cons a as => rfl
    unfold diffParserParse at hb
    rw [if_neg (by rw [hd]; simp)] at hb
    simp only [hne, Bool.false_eq_true, if_false, List.mem_singleton] at hb
    subst hb
    exact ⟨rfl, by simp⟩
  · intro header cl ln hct
    have hd : DetectBlockContentType (joinNl (trimTrailingEmpty cl)) = .diff := hct
    have hdiff : isDiff (joinNl (trimTrailingEmpty cl)) = true :=
      (detect_eq_diff_iff _).mp hd
    have hpos := isDiff_hunks_pos _ hdiff
    have hne : (ParseHunks (joinNl (trimTrailingEmpty cl))).isEmpty = false := by
      cases hp : ParseHunks (joinNl (trimTrailingEmpty cl)) with
      | nil => rw [hp] at hpos; simp at hpos
      | cons a as => rfl
    show (if DetectBlockContentType (joinNl (trimTrailingEmpty cl)) = .diff then
        splitDiffIntoHunkPages (joinNl (trimTrailingEmpty cl))
      else splitIntoPages (trimTrailingEmpty cl) LinesPerPage) = _ ∧ _
    rw [if_pos hd]
    unfold splitDiffIntoHunkPages
    simp only [hne, Bool.false_eq_true, if_false]
    constructor
    · rfl
    · show (if DetectBlockContentType (joinNl (trimTrailingEmpty cl)) = .diff then
          splitDiffIntoHunkPages (joinNl (trimTrailingEmpty cl))
        else splitIntoPages (trimTrailingEmpty cl) LinesPerPage).length = _
      rw [if_pos hd]
      unfold splitDiffIntoHunkPages
      simp only [hne, Bool.false_eq_true, if_false, List.length_replicate]
      rfl
  · intro msg dn ln b hcb
    unfold createDiffBlock at hcb
    by_cases he : (extractStructuredPatch msg).isEmpty = true
    · rw [if_pos he] at hcb
      exact absurd hcb (by simp)
    · rw [if_neg he] at hcb
      simp only [Option.some.injEq] at hcb
      subst hcb
      have hmax : (if (ParseHunks (extractStructuredPatch msg)).length = 0 then 1
          else (ParseHunks (extractStructuredPatch msg)).length) =
          max 1 (ParseHunks (extractStructuredPatch msg)).length := by
        by_cases hz : (ParseHunks (extractStructuredPatch msg)).length = 0
        · rw [if_pos hz, hz]
          rfl
        · rw [if_neg hz]
          omega
      exact ⟨by rw [hmax], by show (if _ then _ else _) = _; rw [hmax]⟩

/-- Closed instance of c7_amended: the one-hunk DiffParser block stores
the whole diff on its single page. -/
theorem c7_amended_witness :
    ((diffParserParse (str "--- a/g\n+++ b/g\n@@ -1,1 +1,1 @@\n-a\n+b")).headD
      { name := [], content := [], lineNum := 0, fullText := [], pages := [],
        totalPages := 0, contentType := .plain, pageTypes := [], pageMeta := [],
        sourceType := .other }).pages =
    List.replicate (ParseHunks (str "--- a/g\n+++ b/g\n@@ -1,1 +1,1 @@\n-a\n+b")).length
      (str "--- a/g\n+++ b/g\n@@ -1,1 +1,1 @@\n-a\n+b") :=
  (c7_amended.1 (str "--- a/g\n+++ b/g\n@@ -1,1 +1,1 @@\n-a\n+b") (by decide)
    ((diffParserParse (str "--- a/g\n+++ b/g\n@@ -1,1 +1,1 @@\n-a\n+b")).headD
      { name := [], content := [], lineNum := 0, fullText := [], pages := [],
        totalPages := 0, contentType := .plain, pageTypes := [], pageMeta := [],
        sourceType := .other })
    (by decide)).1

/-- C2: with the user and assistant filters enabled, a genuine user
message with non-empty extracted text closes the open turn, emitting it as
exactly one Block, and opens a new turn whose only part is that user text;
Parse emits any still open turn as a final Block at end of input; and the
three-line transcript user hi, assistant reply, user bye parses to exactly
the two Blocks built from the turn holding the hi and reply parts in that
order and the turn holding only bye. -/
theorem c2_turn_boundary :
    (∀ (f : Filters) (fmtA : Str → Str) (st : JState) (i : Nat) (msg : JMap),
      f.user = true →
      getStr msg (str "type") = some (str "user") →
      isToolResultMessage msg = false →
      (ExtractUserContent msg).isEmpty = false →
      jsonlStep f fmtA st i (some msg) =
        { blocks := st.blocks ++ flushTurn fmtA st,
          currentTurn := some ⟨[⟨.user, ExtractUserContent msg, []⟩], i⟩,
          turnNumber := st.turnNumber + 1 }) ∧
    (∀ (f : Filters) (fmtA : Str → Str) (lines : List (Option JMap)),
      jsonlParse f fmtA lines =
        (jsonlLoop f fmtA lines 0 ⟨[], none, 0⟩).blocks ++
          flushTurn fmtA (jsonlLoop f fmtA lines 0 ⟨[], none, 0⟩)) ∧
    (∀ fmtA : Str → Str,
      jsonlParse defaultFilters fmtA
        [some [(str "type", JValue.jstr (str "user")),
               (str "message", JValue.jobj [(str "content", JValue.jstr (str "hi"))])],
         some [(str "type", JValue.jstr (str "assistant")),
               (str "message", JValue.jobj [(str "content",
                 JValue.jarr [JValue.jobj [(str "type", JValue.jstr (str "text")),
                   (str "text", JValue.jstr (str "reply"))]])])],
         some [(str "type", JValue.jstr (str "user")),
               (str "message", JValue.jobj [(str "content", JValue.jstr (str "bye"))])]] =
        [CreateTurnBlock fmtA ⟨[⟨.user, str "hi", []⟩, ⟨.assistant, str "reply", []⟩], 0⟩ 1,
         CreateTurnBlock fmtA ⟨[⟨.user, str "bye", []⟩], 2⟩ 2]) := by
  refine ⟨?_, ?_, ?_⟩
  · intro f fmtA st i msg hu hty htr hue
    simp only [jsonlStep]
    split
    · rename_i heq
      rw [hty] at heq
      exact absurd heq (by simp)
    · rename_i msgType heq
      rw [hty] at heq
      injection heq with heq2
      subst heq2
      rw [if_pos rfl]
      rw [if_neg (by rw [htr]; exact Bool.false_ne_true)]
      rw [if_neg (by rw [hu]; decide)]
      rw [if_neg (by rw [hue]; exact Bool.false_ne_true)]
  · intro f fmtA lines
    rfl
  · intro fmtA
    rfl

/-- Closed instance of c2_turn_boundary: a genuine user message hitting the
empty initial state opens turn 1 seeded with its text. -/
theorem c2_turn_boundary_witness :
    jsonlStep defaultFilters (fun s => s) ⟨[], none, 0⟩ 5
        (some [(str "type", JValue.jstr (str "user")),
               (str "message", JValue.jobj [(str "content", JValue.jstr (str "hi"))])]) =
      { blocks := [], currentTurn := some ⟨[⟨.user, str "hi", []⟩], 5⟩,
        turnNumber := 1 } := by
  rw [c2_turn_boundary.1 defaultFilters (fun s => s) ⟨[], none, 0⟩ 5
    [(str "type", JValue.jstr (str "user")),
     (str "message", JValue.jobj [(str "content", JValue.jstr (str "hi"))])]
    rfl rfl rfl rfl]
  rfl

theorem flushTurn_length_eq (fmtA fmtA' : Str → Str) (st st' : JState)
    (h : st.currentTurn.isSome = st'.currentTurn.isSome) :
    (flushTurn fmtA st).length = (flushTurn fmtA' st').length := by
  unfold flushTurn
  cases hc : st.currentTurn <;> cases hc' : st'.currentTurn <;>
    rw [hc, hc'] at h <;> first | rfl | simp at h

theorem jsonlStep_rel (f : Filters) (fmtA : Str → Str) (st st' : JState)
    (i j : Nat) (item : Option JMap) (h : JStateRel st st') :
    JStateRel (jsonlStep f fmtA st i item) (jsonlStep f fmtA st' j item) := by
  obtain ⟨hb, hs, ht⟩ := h
  cases item with
  | none => exact ⟨hb, hs, ht⟩
  | some msg =>
    simp only [jsonlStep]
    split
    · exact ⟨hb, hs, ht⟩
    · rename_i msgType heq1
      by_cases hu : msgType = str "user"
      · rw [if_pos hu, if_pos hu]
        by_cases htr : isToolResultMessage msg = true
        · rw [if_pos htr, if_pos htr]
          split <;> split
          · exact ⟨hb, rfl, ht⟩
          · rename_i hct x2 hct'
            rw [hct, hct'] at hs
            simp at hs
          · rename_i hct x2 ct hct'
            rw [hct, hct'] at hs
            simp at hs
          · exact ⟨hb, hs, ht⟩
        · rw [if_neg htr, if_neg htr]
          by_cases hfu : (!f.user) = true
          · rw [if_pos hfu, if_pos hfu]; exact ⟨hb, hs, ht⟩
          · rw [if_neg hfu, if_neg hfu]
            refine ⟨?_, ?_, ?_⟩
            · simp only [List.length_append, hb,
                flushTurn_length_eq fmtA fmtA st st' hs]
            · by_cases he : (ExtractUserContent msg).isEmpty = true
              · rw [if_pos he, if_pos he]; exact hs
              · rw [if_neg he, if_neg he]
                rfl
            · rw [ht]
      · rw [if_neg hu, if_neg hu]
        by_cases ha : msgType = str "assistant"
        · rw [if_pos ha, if_pos ha]
          split
          · rename_i ct hct
            by_cases hfa : f.assistant = true
            · rw [if_pos hfa]
              by_cases he : (ExtractAssistantContent msg).isEmpty = true
              · rw [if_pos he]
                split
                · rw [if_pos hfa, if_pos he]
                  exact ⟨hb, hs, ht⟩
                · exact ⟨hb, hs, ht⟩
              · rw [if_neg he]
                split
                · rw [if_pos hfa, if_neg he]
                  exact ⟨hb, rfl, ht⟩
                · rename_i hct'
                  rw [hct, hct'] at hs
                  simp at hs
            · rw [if_neg hfa]
              split
              · rw [if_neg hfa]
                exact ⟨hb, hs, ht⟩
              · exact ⟨hb, hs, ht⟩
          · split
            · rename_i hct x2 ct' hct'
              rw [hct, hct'] at hs
              simp at hs
            · exact ⟨hb, hs, ht⟩
        · rw [if_neg ha, if_neg ha]; exact ⟨hb, hs, ht⟩

theorem jsonlLoop_rel (f : Filters) (fmtA : Str → Str) (lines : List (Option JMap)) :
    ∀ (i j : Nat) (st st' : JState), JStateRel st st' →
      JStateRel (jsonlLoop f fmtA lines i st) (jsonlLoop f fmtA lines j st') := by
  induction lines with
  | nil => intro i j st st' h; exact h
  | cons item rest ih =>
    intro i j st st' h
    exact ih (i + 1) (j + 1) _ _ (jsonlStep_rel f fmtA st st' i j item h)

theorem jsonlLoop_append (f : Filters) (fmtA : Str → Str) (a : List (Option JMap)) :
    ∀ (b : List (Option JMap)) (i : Nat) (st : JState),
      jsonlLoop f fmtA (a ++ b) i st =
        jsonlLoop f fmtA b (i + a.length) (jsonlLoop f fmtA a i st) := by
  induction a with
  | nil => intro b i st; rfl
  | cons item rest ih =>
    intro b i st
    show jsonlLoop f fmtA (rest ++ b) (i + 1) (jsonlStep f fmtA st i item) = _
    rw [ih]
    have harith : i + 1 + rest.length = i + (item :: rest).length := by
      simp only [List.length_cons]; omega
    rw [harith]
    rfl

/-- The step of the Parse loop on a tool result line: the block list and
turn counter are untouched and the only effect is parts appended to the
open turn, when one is open. -/
theorem jsonlStep_toolResult (f : Filters) (fmtA : Str → Str) (st : JState)
    (i : Nat) (msg : JMap)
    (hty : getStr msg (str "type") = some (str "user"))
    (htr : isToolResultMessage msg = true) :
    jsonlStep f fmtA st i (some msg) =
      { st with currentTurn :=
          Option.map (fun ct =>
            { ct with parts := ct.parts ++ toolResultParts f msg }) st.currentTurn } := by
  obtain ⟨sb, sc, sn⟩ := st
  simp only [jsonlStep]
  split
  · rename_i heq
    rw [hty] at heq
    exact absurd heq (by simp)
  · rename_i msgType heq
    rw [hty] at heq
    injection heq with heq2
    subst heq2
    rw [if_pos rfl]
    rw [if_pos htr]
    cases sc with
    | none => rfl
    | some ct => rfl

/-- C5: a user typed line whose message content carries a tool_result item
never starts a new Block, regardless of filter settings: the loop step
leaves the block list and the turn counter unchanged and only appends
parts to the already open turn, and inserting such a line anywhere in the
input leaves the number of Blocks Parse emits unchanged. -/
theorem c5_tool_result_suppression :
    (∀ (f : Filters) (fmtA : Str → Str) (st : JState) (i : Nat) (msg : JMap),
      getStr msg (str "type") = some (str "user") →
      isToolResultMessage msg = true →
      jsonlStep f fmtA st i (some msg) =
        { st with currentTurn :=
            Option.map (fun ct =>
              { ct with parts := ct.parts ++ toolResultParts f msg }) st.currentTurn }) ∧
    (∀ (f : Filters) (fmtA : Str → Str) (pre post : List (Option JMap)) (msg : JMap),
      getStr msg (str "type") = some (str "user") →
      isToolResultMessage msg = true →
      (jsonlParse f fmtA (pre ++ some msg :: post)).length =
        (jsonlParse f fmtA (pre ++ post)).length) := by
  refine ⟨fun f fmtA st i msg hty htr =>
    jsonlStep_toolResult f fmtA st i msg hty htr, ?_⟩
  intro f fmtA pre post msg hty htr
  show ((jsonlLoop f fmtA (pre ++ some msg :: post) 0 ⟨[], none, 0⟩).blocks ++
      flushTurn fmtA (jsonlLoop f fmtA (pre ++ some msg :: post) 0 ⟨[], none, 0⟩)).length =
    ((jsonlLoop f fmtA (pre ++ post) 0 ⟨[], none, 0⟩).blocks ++
      flushTurn fmtA (jsonlLoop f fmtA (pre ++ post) 0 ⟨[], none, 0⟩)).length
  rw [jsonlLoop_append f fmtA pre (some msg :: post) 0 ⟨[], none, 0⟩,
    jsonlLoop_append f fmtA pre post 0 ⟨[], none, 0⟩]
  generalize jsonlLoop f fmtA pre 0 ⟨[], none, 0⟩ = stP
  have hcons : jsonlLoop f fmtA (some msg :: post) (0 + pre.length) stP =
      jsonlLoop f fmtA post (0 + pre.length + 1)
        (jsonlStep f fmtA stP (0 + pre.length) (some msg)) := rfl
  rw [hcons, jsonlStep_toolResult f fmtA stP (0 + pre.length) msg hty htr]
  have hrel := jsonlLoop_rel f fmtA post (0 + pre.length + 1) (0 + pre.length)
    { stP with currentTurn :=
        Option.map (fun ct =>
          { ct with parts := ct.parts ++ toolResultParts f msg }) stP.currentTurn } stP
    ⟨rfl, by cases hc : stP.currentTurn <;> simp [hc], rfl⟩
  obtain ⟨hb2, hs2, ht2⟩ := hrel
  simp only [List.length_append]
  rw [hb2, flushTurn_length_eq fmtA fmtA _ _ hs2]

/-- Closed instance of c5_tool_result_suppression: a tool result line
leaves a state with one open turn unchanged under the default filters. -/
theorem c5_tool_result_suppression_witness :
    jsonlStep defaultFilters (fun s => s)
        ⟨[], some ⟨[⟨.user, str "q", []⟩], 0⟩, 1⟩ 3
        (some [(str "type", JValue.jstr (str "user")),
               (str "message", JValue.jobj [(str "content",
                 JValue.jarr [JValue.jobj
                   [(str "type", JValue.jstr (str "tool_result"))]])])]) =
      ⟨[], some ⟨[⟨.user, str "q", []⟩], 0⟩, 1⟩ := by
  rw [c5_tool_result_suppression.1 defaultFilters (fun s => s)
    ⟨[], some ⟨[⟨.user, str "q", []⟩], 0⟩, 1⟩ 3
    [(str "type", JValue.jstr (str "user")),
     (str "message", JValue.jobj [(str "content",
       JValue.jarr [JValue.jobj
         [(str "type", JValue.jstr (str "tool_result"))]])])]
    rfl rfl]
  rfl

theorem intToStr_natCast (n : Nat) : intToStr (n : Int) = natToStr n := by
  unfold intToStr
  rw [if_neg (by omega), Int.toNat_natCast]

theorem natToStr_not_isEmpty (n : Nat) : (natToStr n).isEmpty = false := by
  cases h : natToStr n with
  | nil => exact absurd h (natToStr_ne_nil n)
  | cons a b => rfl

theorem takeWhile_digits_comma (n : Nat) (b : Str) :
    (natToStr n ++ ',' :: b).takeWhile Char.isDigit = natToStr n := by
  rw [takeWhile_append_all Char.isDigit (natToStr n) (',' :: b) (natToStr_all_digits n)]
  simp [List.takeWhile_cons]

theorem afterNum_num (n : Nat) (b : Str) :
    afterNum (',' :: (natToStr n ++ ' ' :: b)) = some b := by
  show (match (natToStr n ++ ' ' :: b).drop
      (((natToStr n ++ ' ' :: b).takeWhile Char.isDigit).length) with
    | ' ' :: r2 => some r2
    | _ => none) = some b
  rw [takeWhile_append_all Char.isDigit (natToStr n) (' ' :: b) (natToStr_all_digits n)]
  rw [show (' ' :: b).takeWhile Char.isDigit = [] by simp [List.takeWhile_cons]]
  rw [List.append_nil, List.drop_left]
  rfl

theorem strStartsWith_prefix (pre s : Str) : strStartsWith (pre ++ s) pre = true := by
  induction pre with
  | nil =>
    cases s with
    | nil => rfl
    | cons a b => rfl
  | cons c t ih => simp [strStartsWith_cons, ih]

theorem splitOnNl_nlTerm (ls : List Str) (h : ∀ l ∈ ls, '\n' ∉ l) :
    splitOnNl ((ls.map (fun l => l ++ ['\n'])).flatten) = ls ++ [[]] := by
  induction ls with
  | nil => rfl
  | cons l t ih =>
    have hl : '\n' ∉ l := h l (by simp)
    have ht : ∀ x ∈ t, '\n' ∉ x := fun x hx => h x (by simp [hx])
    simp only [List.map_cons, List.flatten_cons]
    rw [show (l ++ ['\n']) ++ ((t.map (fun l => l ++ ['\n'])).flatten) =
        l ++ '\n' :: ((t.map (fun l => l ++ ['\n'])).flatten) by simp]
    show splitOnChar '\n' _ = _
    rw [splitOnChar_append_sep '\n' l _ hl]
    rw [show splitOnChar '\n' ((t.map (fun l => l ++ ['\n'])).flatten) =
        splitOnNl ((t.map (fun l => l ++ ['\n'])).flatten) from rfl]
    rw [ih ht]
    rfl

theorem hunkNumsAt_arm (rest : Str) :
    hunkNumsAt ('@' :: '@' :: ' ' :: '-' :: rest) =
      (if (rest.takeWhile Char.isDigit).isEmpty then none
       else
         match afterNum (rest.drop (rest.takeWhile Char.isDigit).length) with
         | none => none
         | some r2 =>
           match r2 with
           | '+' :: r3 =>
             if (r3.takeWhile Char.isDigit).isEmpty then none
             else
               match afterNum (r3.drop (r3.takeWhile Char.isDigit).length) with
               | none => none
               | some r4 =>
                 if strStartsWith r4 (str "@@") then
                   some (digitsVal (rest.takeWhile Char.isDigit),
                         digitsVal (r3.takeWhile Char.isDigit))
                 else none
           | _ => none) := rfl

theorem hunkNumsAt_spHeader (k : SPatchHunk) :
    hunkNumsAt (spHunkHeader k) = some (k.oldStart, k.newStart) := by
  have hform : spHunkHeader k = '@' :: '@' :: ' ' :: '-' ::
      (natToStr k.oldStart ++ ',' ::
        (natToStr k.oldLines ++ ' ' :: '+' ::
          (natToStr k.newStart ++ ',' ::
            (natToStr k.newLines ++ [' ', '@', '@'])))) := by
    simp only [spHunkHeader, List.append_assoc]
    rfl
  rw [hform, hunkNumsAt_arm]
  rw [takeWhile_digits_comma k.oldStart
    (natToStr k.oldLines ++ ' ' :: '+' ::
      (natToStr k.newStart ++ ',' :: (natToStr k.newLines ++ [' ', '@', '@'])))]
  rw [if_neg (by rw [natToStr_not_isEmpty]; exact Bool.false_ne_true)]
  rw [List.drop_left]
  rw [afterNum_num k.oldLines
    ('+' :: (natToStr k.newStart ++ ',' :: (natToStr k.newLines ++ [' ', '@', '@'])))]
  show (if ((natToStr k.newStart ++ ',' ::
        (natToStr k.newLines ++ [' ', '@', '@'])).takeWhile Char.isDigit).isEmpty then
      none
    else
      match afterNum ((natToStr k.newStart ++ ',' ::
          (natToStr k.newLines ++ [' ', '@', '@'])).drop
        ((natToStr k.newStart ++ ',' ::
          (natToStr k.newLines ++ [' ', '@', '@'])).takeWhile Char.isDigit).length) with
      | none => none
      | some r4 =>
        if strStartsWith r4 (str "@@") then
          some (digitsVal (natToStr k.oldStart),
                digitsVal ((natToStr k.newStart ++ ',' ::
                  (natToStr k.newLines ++ [' ', '@', '@'])).takeWhile Char.isDigit))
        else none) = some (k.oldStart, k.newStart)
  rw [takeWhile_digits_comma k.newStart (natToStr k.newLines ++ [' ', '@', '@'])]
  rw [if_neg (by rw [natToStr_not_isEmpty]; exact Bool.false_ne_true)]
  rw [List.drop_left]
  rw [show (natToStr k.newLines ++ [' ', '@', '@']) =
      (natToStr k.newLines ++ ' ' :: ['@', '@']) from rfl]
  rw [afterNum_num k.newLines ['@', '@']]
  show some (digitsVal (natToStr k.oldStart), digitsVal (natToStr k.newStart)) =
    some (k.oldStart, k.newStart)
  rw [digitsVal_natToStr, digitsVal_natToStr]

theorem hunkNums_of_at (s : Str) (p : Nat × Nat) (h : hunkNumsAt s = some p) :
    hunkNums s = some p := by
  cases s with
  | nil => exact h
  | cons c t =>
    simp only [hunkNums]
    split
    · rename_i p' hp'
      rw [h] at hp'
      injection hp' with e
      rw [e]
    · rename_i hp'
      rw [h] at hp'
      exact absurd hp' (by simp)

theorem parseHunkHeaderNums_spHeader (k : SPatchHunk) :
    parseHunkHeaderNums (spHunkHeader k) = (k.oldStart, k.newStart) := by
  unfold parseHunkHeaderNums
  rw [hunkNums_of_at _ _ (hunkNumsAt_spHeader k)]
  rfl

theorem renderPatchHunk_mk (h : SPatchHunk) :
    renderPatchHunk (mkPatchHunkJ h) =
      (spHunkHeader h ++ ['\n']) ++ (h.lines.map (fun l => l ++ ['\n'])).flatten := by
  show (str "@@ -" ++ intToStr ((h.oldStart : Nat) : Int) ++ str "," ++
      intToStr ((h.oldLines : Nat) : Int) ++ str " +" ++
      intToStr ((h.newStart : Nat) : Int) ++ str "," ++
      intToStr ((h.newLines : Nat) : Int) ++ str " @@" ++ ['\n']) ++
    ((h.lines.map JValue.jstr).filterMap (fun ld =>
      match ld with
      | JValue.jstr l => some (l ++ ['\n'])
      | _ => none)).flatten = _
  rw [intToStr_natCast, intToStr_natCast, intToStr_natCast, intToStr_natCast]
  rw [show (h.lines.map JValue.jstr).filterMap (fun ld =>
      match ld with
      | JValue.jstr l => some (l ++ ['\n'])
      | _ => none) = h.lines.map (fun l => l ++ ['\n']) by
    rw [List.filterMap_map]
    show h.lines.filterMap (fun l => some (l ++ ['\n'])) = _
    induction h.lines with
    | nil => rfl
    | cons x t ih => simp only [List.filterMap_cons, List.map_cons, ih]]
  rfl

theorem spBody_flatten (hs : List SPatchHunk) :
    ((hs.flatMap (fun k => spHunkHeader k :: k.lines)).map (fun l => l ++ ['\n'])).flatten =
      ((hs.map mkPatchHunkJ).map renderPatchHunk).flatten := by
  induction hs with
  | nil => rfl
  | cons k t ih =>
    simp only [List.flatMap_cons, List.map_cons, List.map_append, List.flatten_cons,
      List.flatten_append]
    rw [renderPatchHunk_mk k, ih]

theorem extractStructuredPatch_mk (path : Str) (hs : List SPatchHunk)
    (hp : path ≠ []) (hh : hs ≠ []) :
    extractStructuredPatch (mkPatchMsg path hs) =
      ((spLineList path hs).map (fun l => l ++ ['\n'])).flatten := by
  have hpe : path.isEmpty = false := by
    cases path with
    | nil => exact absurd rfl hp
    | cons c t => rfl
  have hse : (hs.map mkPatchHunkJ).isEmpty = false := by
    cases hs with
    | nil => exact absurd rfl hh
    | cons k t => rfl
  show (if (hs.map mkPatchHunkJ).isEmpty then ([] : Str)
    else
      (str "--- a/" ++ (if path.isEmpty then str "file" else path) ++ ['\n']) ++
      (str "+++ b/" ++ (if path.isEmpty then str "file" else path) ++ ['\n']) ++
      ((hs.map mkPatchHunkJ).map renderPatchHunk).flatten) = _
  simp only [hse, hpe, Bool.false_eq_true, if_false]
  rw [← spBody_flatten hs]
  simp only [spLineList, List.map_cons, List.flatten_cons]
  simp [List.append_assoc]

theorem phLoop_body_walk (body : List Str) :
    (∀ l ∈ body, strStartsWith l (str "@@") = false) →
    ∀ (rest : List Str) (hunks : List DiffHunk) (h : DiffHunk),
    ∃ nl, phLoop (body ++ rest) hunks (some h) =
      phLoop rest hunks (some { h with lines := nl }) := by
  induction body with
  | nil =>
    intro _ rest hunks h
    exact ⟨h.lines, rfl⟩
  | cons l t ih =>
    intro hnb rest hunks h
    have hat : strStartsWith l (str "@@") = false := hnb l (by simp)
    have ht : ∀ x ∈ t, strStartsWith x (str "@@") = false :=
      fun x hx => hnb x (by simp [hx])
    by_cases hfh : (strStartsWith l (str "---") || strStartsWith l (str "+++")) = true
    · obtain ⟨nl, he⟩ := ih ht rest hunks h
      refine ⟨nl, ?_⟩
      rw [show phLoop ((l :: t) ++ rest) hunks (some h) =
          phLoop (t ++ rest) hunks (some h) by
        simp only [List.cons_append, phLoop, hfh, if_true]
        rfl]
      exact he
    · have hfh' : (strStartsWith l (str "---") || strStartsWith l (str "+++")) = false :=
        Bool.eq_false_iff.mpr hfh
      obtain ⟨nl, he⟩ := ih ht rest hunks
        { h with lines := h.lines ++ [classifyDiffLine l] }
      refine ⟨nl, ?_⟩
      rw [show phLoop ((l :: t) ++ rest) hunks (some h) =
          phLoop (t ++ rest) hunks
            (some { h with lines := h.lines ++ [classifyDiffLine l] }) by
        simp only [List.cons_append, phLoop, hfh', hat]; rfl]
      exact he

theorem phLoop_spBlocks (hs : List SPatchHunk) :
    (∀ k ∈ hs, ∀ l ∈ k.lines, strStartsWith l (str "@@") = false) →
    ∀ (hunks : List DiffHunk) (h : DiffHunk),
    (phLoop (hs.flatMap (fun k => spHunkHeader k :: k.lines) ++ [[]]) hunks
        (some h)).map dProj =
      hunks.map dProj ++ dProj h ::
        hs.map (fun k => (spHunkHeader k, k.oldStart, k.newStart)) := by
  induction hs with
  | nil =>
    intro _ hunks h
    show (phLoop [[]] hunks (some h)).map dProj = _
    rw [show phLoop [[]] hunks (some h) =
        hunks ++ [{ h with lines := h.lines ++ [classifyDiffLine []] }] by rfl]
    simp [dProj, List.map_append]
  | cons k t ih =>
    intro hwf hunks h
    have hkl : ∀ l ∈ k.lines, strStartsWith l (str "@@") = false :=
      hwf k (by simp)
    have htl : ∀ q ∈ t, ∀ l ∈ q.lines, strStartsWith l (str "@@") = false :=
      fun q hq => hwf q (by simp [hq])
    have hskip : (strStartsWith (spHunkHeader k) (str "---") ||
        strStartsWith (spHunkHeader k) (str "+++")) = false := rfl
    have hat : strStartsWith (spHunkHeader k) (str "@@") = true := rfl
    rw [show (k :: t).flatMap (fun q => spHunkHeader q :: q.lines) ++ [[]] =
        spHunkHeader k :: (k.lines ++ (t.flatMap (fun q => spHunkHeader q :: q.lines) ++ [[]])) by
      simp [List.flatMap_cons, List.append_assoc]]
    rw [show phLoop (spHunkHeader k ::
          (k.lines ++ (t.flatMap (fun q => spHunkHeader q :: q.lines) ++ [[]]))) hunks (some h) =
        phLoop (k.lines ++ (t.flatMap (fun q => spHunkHeader q :: q.lines) ++ [[]]))
          (hunks ++ [h])
          (some ⟨spHunkHeader k, [], (parseHunkHeaderNums (spHunkHeader k)).1,
            (parseHunkHeaderNums (spHunkHeader k)).2⟩) by
      simp only [phLoop, hskip, hat]; rfl]
    obtain ⟨nl, he⟩ := phLoop_body_walk k.lines hkl
      (t.flatMap (fun q => spHunkHeader q :: q.lines) ++ [[]]) (hunks ++ [h])
      ⟨spHunkHeader k, [], (parseHunkHeaderNums (spHunkHeader k)).1,
        (parseHunkHeaderNums (spHunkHeader k)).2⟩
    rw [he, ih htl]
    rw [parseHunkHeaderNums_spHeader k]
    simp [dProj, List.map_append]

theorem spHunkHeader_no_nl (k : SPatchHunk) : '\n' ∉ spHunkHeader k := by
  intro hm
  simp only [spHunkHeader, List.mem_append] at hm
  rcases hm with ((((((((hm | hm) | hm) | hm) | hm) | hm) | hm) | hm) | hm)
  · exact absurd hm (by decide)
  · exact natToStr_no_nl _ hm
  · exact absurd hm (by decide)
  · exact natToStr_no_nl _ hm
  · exact absurd hm (by decide)
  · exact natToStr_no_nl _ hm
  · exact absurd hm (by decide)
  · exact natToStr_no_nl _ hm
  · exact absurd hm (by decide)

/-- C9: round trip between the structured patch synthesizer and the hunk
parser. For a message carrying a file path and a non-empty structured
patch of well formed hunks, extractStructuredPatch emits the two file
header lines for that path followed, per hunk, by the synthesized hunk
header line and that hunk's lines verbatim; and ParseHunks applied to the
synthesized string returns exactly one parsed hunk per structured patch
hunk, in order, whose header is the synthesized header line and whose
StartOld and StartNew equal that hunk's oldStart and newStart. -/
theorem c9_round_trip (path : Str) (hs : List SPatchHunk)
    (hp : path ≠ []) (hpn : '\n' ∉ path) (hh : hs ≠ [])
    (hwf : ∀ k ∈ hs, ∀ l ∈ k.lines, '\n' ∉ l ∧ strStartsWith l (str "@@") = false) :
    extractStructuredPatch (mkPatchMsg path hs) =
      ((spLineList path hs).map (fun l => l ++ ['\n'])).flatten ∧
    (ParseHunks (extractStructuredPatch (mkPatchMsg path hs))).map dProj =
      hs.map (fun k => (spHunkHeader k, k.oldStart, k.newStart)) ∧
    (ParseHunks (extractStructuredPatch (mkPatchMsg path hs))).length = hs.length := by
  have h1 := extractStructuredPatch_mk path hs hp hh
  have hnl : ∀ l ∈ spLineList path hs, '\n' ∉ l := by
    intro l hl
    simp only [spLineList, List.mem_cons] at hl
    rcases hl with hl | hl | hl
    · subst hl
      intro hm
      rcases List.mem_append.mp hm with hm | hm
      · exact absurd hm (by decide)
      · exact hpn hm
    · subst hl
      intro hm
      rcases List.mem_append.mp hm with hm | hm
      · exact absurd hm (by decide)
      · exact hpn hm
    · obtain ⟨k, hk, hlk⟩ := List.mem_flatMap.mp hl
      rcases List.mem_cons.mp hlk with hlk | hlk
      · subst hlk
        exact spHunkHeader_no_nl k
      · exact (hwf k hk l hlk).1
  have h2 : (ParseHunks (extractStructuredPatch (mkPatchMsg path hs))).map dProj =
      hs.map (fun k => (spHunkHeader k, k.oldStart, k.newStart)) := by
    rw [h1]
    show (phLoop (splitOnNl (((spLineList path hs).map (fun l => l ++ ['\n'])).flatten))
      [] none).map dProj = _
    rw [splitOnNl_nlTerm (spLineList path hs) hnl]
    rw [show spLineList path hs ++ [[]] =
        (str "--- a/" ++ path) :: (str "+++ b/" ++ path) ::
          (hs.flatMap (fun q => spHunkHeader q :: q.lines) ++ [[]]) by
      simp [spLineList]]
    have hA : (strStartsWith (str "--- a/" ++ path) (str "---") ||
        strStartsWith (str "--- a/" ++ path) (str "+++")) = true := by
      rw [show strStartsWith (str "--- a/" ++ path) (str "---") = true from
        strStartsWith_prefix (str "---") (str " a/" ++ path)]
      rfl
    have hB : (strStartsWith (str "+++ b/" ++ path) (str "---") ||
        strStartsWith (str "+++ b/" ++ path) (str "+++")) = true := by
      rw [show strStartsWith (str "+++ b/" ++ path) (str "+++") = true from
        strStartsWith_prefix (str "+++") (str " b/" ++ path)]
      rw [Bool.or_true]
    rw [show phLoop ((str "--- a/" ++ path) :: (str "+++ b/" ++ path) ::
          (hs.flatMap (fun q => spHunkHeader q :: q.lines) ++ [[]])) [] none =
        phLoop ((str "+++ b/" ++ path) ::
          (hs.flatMap (fun q => spHunkHeader q :: q.lines) ++ [[]])) [] none by
      simp only [phLoop, hA, if_true]]
    rw [show phLoop ((str "+++ b/" ++ path) ::
          (hs.flatMap (fun q => spHunkHeader q :: q.lines) ++ [[]])) [] none =
        phLoop (hs.flatMap (fun q => spHunkHeader q :: q.lines) ++ [[]]) [] none by
      simp only [phLoop, hB, if_true]]
    cases hs with
    | nil => exact absurd rfl hh
    | cons k t =>
      have hkl : ∀ l ∈ k.lines, strStartsWith l (str "@@") = false :=
        fun l hl => (hwf k (by simp) l hl).2
      have htl : ∀ q ∈ t, ∀ l ∈ q.lines, strStartsWith l (str "@@") = false :=
        fun q hq l hl => (hwf q (by simp [hq]) l hl).2
      have hskip : (strStartsWith (spHunkHeader k) (str "---") ||
          strStartsWith (spHunkHeader k) (str "+++")) = false := rfl
      have hat : strStartsWith (spHunkHeader k) (str "@@") = true := rfl
      rw [show (k :: t).flatMap (fun q => spHunkHeader q :: q.lines) ++ [[]] =
          spHunkHeader k ::
            (k.lines ++ (t.flatMap (fun q => spHunkHeader q :: q.lines) ++ [[]])) by
        simp [List.flatMap_cons, List.append_assoc]]
      rw [show phLoop (spHunkHeader k ::
            (k.lines ++ (t.flatMap (fun q => spHunkHeader q :: q.lines) ++ [[]]))) [] none =
          phLoop (k.lines ++ (t.flatMap (fun q => spHunkHeader q :: q.lines) ++ [[]])) []
            (some ⟨spHunkHeader k, [], (parseHunkHeaderNums (spHunkHeader k)).1,
              (parseHunkHeaderNums (spHunkHeader k)).2⟩) by
        simp only [phLoop, hskip, hat]; rfl]
      obtain ⟨nl, he⟩ := phLoop_body_walk k.lines hkl
        (t.flatMap (fun q => spHunkHeader q :: q.lines) ++ [[]]) []
        ⟨spHunkHeader k, [], (parseHunkHeaderNums (spHunkHeader k)).1,
          (parseHunkHeaderNums (spHunkHeader k)).2⟩
      rw [he, phLoop_spBlocks t htl]
      rw [parseHunkHeaderNums_spHeader k]
      simp [dProj]
  refine ⟨h1, h2, ?_⟩
  have h3 := congrArg List.length h2
  rw [List.length_map, List.length_map] at h3
  exact h3

/-- Closed instance of c9_round_trip: a one hunk structured patch parses
back to one hunk. -/
theorem c9_round_trip_witness :
    (ParseHunks (extractStructuredPatch
      (mkPatchMsg (str "f.go") [⟨1, 2, 3, 4, [str "+x", str "-y"]⟩]))).length = 1 :=
  (c9_round_trip (str "f.go") [⟨1, 2, 3, 4, [str "+x", str "-y"]⟩]
    (by decide) (by decide) (by decide) (by decide)).2.2
